import Mathlib

set_option maxRecDepth 40000

/-!
Verification development for the notebook-agent service.

The embedding models, in Lean, the pure computational core of the Python
sources:

* `embedding.py` — the incremental indexing pipeline (`run_pipeline`,
  `process_content`, `get_last_run_time`, `update_last_run_time`,
  `fetch_notes_from_mysql`) together with faithful models of the two
  langchain text splitters it instantiates
  (`MarkdownHeaderTextSplitter(headers_to_split_on=[("#"*k, "h"+str(k))..])`
  with its default `strip_headers=True`, and
  `RecursiveCharacterTextSplitter(chunk_size=500, chunk_overlap=100,
  separators=["\n\n", "\n"])` with its default `keep_separator=True` and
  `length_function=len`).
* `mcp_server.py` — revision-history resolution (`get_note_snapshots`)
  with a model of `diff_match_patch.diff_fromDelta` / `diff_text2`.
* `notebook_client.py` — heading-block extraction
  (`_extract_and_remove_card`, a model of the regex
  `(<h([1-6])\b[^>]*>(.*?)</h\2>)` under `IGNORECASE|DOTALL`) and the
  relocation logic `move_kanban_card_logic`.

Python strings are modelled as `List Char` (`Str`); Python string indices
coincide with positions in the char list.  External collaborators (the
MySQL store, the Chroma collections, the HTML→markdown converter
`markdownify`, the embedding model) are passed in as explicit data or
function parameters.  Character-class tests (`str.isprintable`,
`str.strip`, `\w`) are modelled ASCII-faithfully; all concrete inputs used
in theorems are ASCII.
-/

/-- Python strings, modelled as lists of characters. -/
abbrev Str := List Char

/-- Coerce a Lean string literal to the `Str` model. -/
def strOf (s : String) : Str := s.data

/-- ASCII-faithful model of the character class stripped by Python
`str.strip()` (space, tab, newline, carriage return, vertical tab,
form feed). -/
def pyIsSpace (c : Char) : Bool :=
  c = ' ' || c = '\t' || c = '\n' || c = '\r' || c = '\x0b' || c = '\x0c'

/-- Model of Python `str.strip()`: drop leading and trailing whitespace. -/
def pyStrip (s : Str) : Str :=
  ((s.dropWhile pyIsSpace).reverse.dropWhile pyIsSpace).reverse

/-- ASCII-faithful model of Python `str.isprintable` for a single
character: ASCII controls (below 32 and DEL), C1 controls, NBSP and the
soft hyphen are not printable; everything else is treated as printable. -/
def pyIsPrintable (c : Char) : Bool :=
  if c.toNat < 32 then false
  else if c.toNat = 127 then false
  else if 128 ≤ c.toNat && c.toNat < 160 then false
  else !(c.toNat = 160 || c.toNat = 173)

/-- Model of Python `text.split("\n")`. -/
def splitLines : Str → List Str
  | [] => [[]]
  | '\n' :: rest => [] :: splitLines rest
  | c :: rest =>
    match splitLines rest with
    | [] => [[c]]
    | l :: ls => (c :: l) :: ls

/-- Model of Python `"\n".join(lines)`. -/
def joinNL : List Str → Str
  | [] => []
  | [l] => l
  | l :: l' :: rest => l ++ '\n' :: joinNL (l' :: rest)

/-- Lexicographic comparison of `Str` values; this is how MySQL compares
two `DATETIME` strings in the fixed format `YYYY-MM-DD HH:MM:SS` (the
format the pipeline writes with `str(timestamp)`). -/
def strLtB : Str → Str → Bool
  | [], [] => false
  | [], _ :: _ => true
  | _ :: _, [] => false
  | a :: as, b :: bs => a < b || (a = b && strLtB as bs)

theorem length_dropWhile_le {α : Type} (p : α → Bool) (s : List α) :
    (s.dropWhile p).length ≤ s.length := by
  induction s with
  | nil => simp [List.dropWhile]
  | cons c cs ih =>
    by_cases h : p c
    · simp only [List.dropWhile, h]
      exact Nat.le_succ_of_le ih
    · simp [List.dropWhile, h]

theorem length_pyStrip_le (s : Str) : (pyStrip s).length ≤ s.length := by
  unfold pyStrip
  calc ((s.dropWhile pyIsSpace).reverse.dropWhile pyIsSpace).reverse.length
      = ((s.dropWhile pyIsSpace).reverse.dropWhile pyIsSpace).length := by
        rw [List.length_reverse]
    _ ≤ (s.dropWhile pyIsSpace).reverse.length := length_dropWhile_le _ _
    _ = (s.dropWhile pyIsSpace).length := by rw [List.length_reverse]
    _ ≤ s.length := length_dropWhile_le _ _

/-- The decimal digit characters, model of the digits produced by
Python `str(int)`. -/
def natDigitChar : Nat → Char
  | 0 => '0' | 1 => '1' | 2 => '2' | 3 => '3' | 4 => '4'
  | 5 => '5' | 6 => '6' | 7 => '7' | 8 => '8' | _ => '9'

/-- Fuel-driven digit expansion; the fuel bounds the number of digits,
so that the definition reduces in the kernel. -/
def natDigitsAux : Nat → Nat → Str
  | 0, _ => []
  | fuel + 1, n =>
    if n < 10 then [natDigitChar n]
    else natDigitsAux fuel (n / 10) ++ [natDigitChar (n % 10)]

/-- Model of Python `str(n)` for a non-negative integer `n`. -/
def natDigits (n : Nat) : Str := natDigitsAux (n + 1) n

def digitVal (c : Char) : Nat := c.toNat - 48

/-- Left-to-right decimal valuation, inverse of `natDigits`. -/
def decValue (s : Str) : Nat := s.foldl (fun a c => 10 * a + digitVal c) 0

theorem digitVal_natDigitChar {d : Nat} (h : d < 10) :
    digitVal (natDigitChar d) = d := by
  interval_cases d <;> rfl

theorem natDigitChar_ne_underscore (d : Nat) : natDigitChar d ≠ '_' := by
  unfold natDigitChar
  split <;> decide

theorem natDigits_ne_nil (n : Nat) : natDigits n ≠ [] := by
  unfold natDigits natDigitsAux
  split
  · simp
  · simp

theorem underscore_not_mem_natDigitsAux :
    ∀ (fuel n : Nat), '_' ∉ natDigitsAux fuel n := by
  intro fuel
  induction fuel with
  | zero => intro n; simp [natDigitsAux]
  | succ f ih =>
    intro n
    unfold natDigitsAux
    split
    · intro hmem
      rcases List.mem_singleton.mp hmem with h
      exact natDigitChar_ne_underscore n h.symm
    · intro hmem
      rcases List.mem_append.mp hmem with h1 | h2
      · exact ih (n / 10) h1
      · exact natDigitChar_ne_underscore (n % 10) (List.mem_singleton.mp h2).symm

theorem underscore_not_mem_natDigits (n : Nat) : '_' ∉ natDigits n :=
  underscore_not_mem_natDigitsAux (n + 1) n

theorem decValue_append_digit (s : Str) (c : Char) :
    decValue (s ++ [c]) = 10 * decValue s + digitVal c := by
  unfold decValue
  rw [List.foldl_append]
  rfl

theorem decValue_natDigitsAux :
    ∀ (fuel n : Nat), n < 10 ^ fuel → decValue (natDigitsAux fuel n) = n := by
  intro fuel
  induction fuel with
  | zero => intro n h; simp at h; simp [natDigitsAux, decValue, h]
  | succ f ih =>
    intro n h
    unfold natDigitsAux
    split
    · rename_i hlt
      show 10 * 0 + digitVal (natDigitChar n) = n
      rw [digitVal_natDigitChar hlt]
      omega
    · rename_i hge
      have hdiv : n / 10 < 10 ^ f := by
        rw [Nat.div_lt_iff_lt_mul (by norm_num)]
        calc n < 10 ^ (f + 1) := h
          _ = 10 ^ f * 10 := by ring
      rw [decValue_append_digit, ih (n / 10) hdiv,
        digitVal_natDigitChar (Nat.mod_lt n (by norm_num))]
      omega

theorem decValue_natDigits (n : Nat) : decValue (natDigits n) = n := by
  have h2 : n < 2 ^ n := Nat.lt_two_pow n
  have h10 : (2 : Nat) ^ n ≤ 10 ^ n := Nat.pow_le_pow_left (by norm_num) n
  have h10' : (10 : Nat) ^ n ≤ 10 ^ (n + 1) := Nat.pow_le_pow_right (by norm_num) (Nat.le_succ n)
  exact decValue_natDigitsAux (n + 1) n (by omega)

theorem natDigits_injective {a b : Nat} (h : natDigits a = natDigits b) : a = b := by
  have := congrArg decValue h
  rwa [decValue_natDigits, decValue_natDigits] at this

/-- Splitting a string of shape `a ++ "_" ++ b` at an underscore is
unambiguous when neither `a` nor `c` contains an underscore. -/
theorem append_underscore_inj :
    ∀ {a c : Str} {b d : Str}, '_' ∉ a → '_' ∉ c →
      a ++ '_' :: b = c ++ '_' :: d → a = c ∧ b = d := by
  intro a
  induction a with
  | nil =>
    intro c b d _ hc h
    cases c with
    | nil => simpa using h
    | cons x xs =>
      simp only [List.nil_append, List.cons_append, List.cons.injEq] at h
      obtain ⟨hx, _⟩ := h
      subst hx
      exact absurd (List.mem_cons_self _ xs) hc
  | cons x xs ih =>
    intro c b d ha hc h
    cases c with
    | nil =>
      simp only [List.cons_append, List.nil_append, List.cons.injEq] at h
      obtain ⟨hx, _⟩ := h
      subst hx
      exact absurd (List.mem_cons_self _ xs) ha
    | cons y ys =>
      simp only [List.cons_append, List.cons.injEq] at h
      obtain ⟨hxy, hrest⟩ := h
      have ha' : '_' ∉ xs := fun hm => ha (List.mem_cons_of_mem x hm)
      have hc' : '_' ∉ ys := fun hm => hc (List.mem_cons_of_mem y hm)
      obtain ⟨h1, h2⟩ := ih ha' hc' hrest
      exact ⟨by rw [hxy, h1], h2⟩

/-! ## Model of langchain's MarkdownHeaderTextSplitter

`process_content` in `embedding.py` instantiates
`MarkdownHeaderTextSplitter(headers_to_split_on=[("#"*k, "h"+str(k)) for k
in 1..max_level])` and calls `split_text`.  With those separators and the
default `strip_headers=True`, a line is recognised as a header exactly
when, after `strip()` and removal of unprintable characters, it starts
with `1 ≤ k ≤ max_level` hash marks followed by a space or end of line.
Header metadata is the stack of enclosing headers, one entry per level,
levels strictly increasing.  Fenced code blocks suspend header parsing.
Consecutive output fragments with equal metadata are merged with the
markdown line break `"  \n"` by `aggregate_lines_to_chunks`. -/

/-- A fragment produced by the markdown header splitter: content plus the
header path, as (level, header text) pairs with levels strictly
increasing (the insertion order of langchain's metadata dict). -/
structure MDSection where
  page_content : Str
  metadata : List (Nat × Str)
deriving DecidableEq

/-- Number of leading hash marks of a (already stripped) line. -/
def leadHashNum : Str → Nat
  | '#' :: rest => leadHashNum rest + 1
  | _ => 0

/-- Header recognition: `stripped_line.startswith("#"*k)` together with
`len(stripped_line) == k or stripped_line[k] == " "` for some
`1 ≤ k ≤ maxLevel`; the header data is the stripped remainder. -/
def line_header (maxLevel : Nat) (l : Str) : Option (Nat × Str) :=
  let k := leadHashNum l
  if 1 ≤ k ∧ k ≤ maxLevel ∧ (l.drop k = [] ∨ (l.drop k).head? = some ' ')
  then some (k, pyStrip (l.drop k)) else none

/-- The backquote character, written by code point to keep source plain. -/
def backquote : Char := Char.ofNat 96

/-- Non-overlapping count of a three-character run, model of
`str.count("```")`. -/
def countTriple (f : Char) : Str → Nat
  | a :: b :: c :: rest =>
    if a = f ∧ b = f ∧ c = f then countTriple f rest + 1
    else countTriple f (b :: c :: rest)
  | _ => 0

/-- Model of the code-fence state update of
`MarkdownHeaderTextSplitter.split_text` for one (stripped) line. -/
def md_fence_update (inCode : Bool) (fence : Str) (l : Str) : Bool × Str :=
  if !inCode then
    if [backquote, backquote, backquote].isPrefixOf l ∧ countTriple backquote l = 1 then
      (true, [backquote, backquote, backquote])
    else if (strOf "~~~").isPrefixOf l then
      (true, strOf "~~~")
    else (false, fence)
  else
    if fence.isPrefixOf l then (false, []) else (true, fence)

/-- Loop state of `MarkdownHeaderTextSplitter.split_text`:
`lines_with_metadata`, `current_content`, `current_metadata`,
`header_stack`/`initial_metadata` (one list, since the dict's insertion
order equals the stack order), and the code fence state. -/
structure MDState where
  out : List MDSection
  cur : List Str
  curMeta : List (Nat × Str)
  stack : List (Nat × Str)
  inCode : Bool
  fence : Str
deriving DecidableEq

/-- One iteration of the line loop of
`MarkdownHeaderTextSplitter.split_text`. -/
def md_step (maxLevel : Nat) (st : MDState) (line : Str) : MDState :=
  let stripped := (pyStrip line).filter pyIsPrintable
  let fs := md_fence_update st.inCode st.fence stripped
  if fs.1 then
    { st with cur := st.cur ++ [stripped], inCode := fs.1, fence := fs.2 }
  else
    match line_header maxLevel stripped with
    | some (lvl, data) =>
      let stack := (st.stack.takeWhile (fun p => p.1 < lvl)) ++ [(lvl, data)]
      let out :=
        if st.cur ≠ [] then st.out ++ [⟨joinNL st.cur, st.curMeta⟩] else st.out
      { out := out
        cur := []
        curMeta := stack
        stack := stack
        inCode := fs.1
        fence := fs.2 }
    | none =>
      if stripped ≠ [] then
        { st with
          cur := st.cur ++ [stripped]
          curMeta := st.stack
          inCode := fs.1
          fence := fs.2 }
      else if st.cur ≠ [] then
        { out := st.out ++ [⟨joinNL st.cur, st.curMeta⟩]
          cur := []
          curMeta := st.stack
          stack := st.stack
          inCode := fs.1
          fence := fs.2 }
      else
        { st with
          curMeta := st.stack
          inCode := fs.1
          fence := fs.2 }

/-- The `lines_with_metadata` produced by
`MarkdownHeaderTextSplitter.split_text` before aggregation. -/
def md_split_lines (maxLevel : Nat) (text : Str) : List MDSection :=
  let st := (splitLines text).foldl (md_step maxLevel) ⟨[], [], [], [], false, []⟩
  if st.cur ≠ [] then st.out ++ [⟨joinNL st.cur, st.curMeta⟩] else st.out

/-- Fuel-driven aggregation core (each step shortens the list, so fuel
equal to the list length is always enough). -/
def md_aggregate_aux : Nat → List MDSection → List MDSection
  | 0, l => l
  | _ + 1, [] => []
  | _ + 1, [x] => [x]
  | fuel + 1, x :: y :: rest =>
    if x.metadata = y.metadata then
      md_aggregate_aux fuel
        (⟨x.page_content ++ strOf "  \n" ++ y.page_content, x.metadata⟩ :: rest)
    else x :: md_aggregate_aux fuel (y :: rest)

/-- Model of `aggregate_lines_to_chunks` with `strip_headers=True`:
consecutive fragments with equal metadata are joined with `"  \n"`. -/
def md_aggregate (l : List MDSection) : List MDSection :=
  md_aggregate_aux l.length l

/-- Model of `MarkdownHeaderTextSplitter.split_text` for header
separators `#`, `##`, ..., `"#" * maxLevel`. -/
def md_split_text (maxLevel : Nat) (text : Str) : List MDSection :=
  md_aggregate (md_split_lines maxLevel text)

/-! ## The header-depth search loop (Step B of `process_content`) -/

def chunk_size : Nat := 500
def chunk_overlap : Nat := 100

/-- The oversize test of the Step-B loop of `process_content`:
`any(sys.getsizeof(d.page_content) > chunk_size for d in md_header_splits)`.
The Python object size `sys.getsizeof` is an external, memory-layout
dependent measure; it is abstracted as the parameter `sz`. -/
def header_oversize (sz : Str → Nat) (md : Str) (lvl : Nat) : Bool :=
  (md_split_text lvl md).any (fun d => chunk_size < sz d.page_content)

/-- The `for i in range(1, 7)` retry loop of `process_content`: try the
current depth; on oversize move to the next depth, for at most six
attempts in total. -/
def header_depth_aux (bad : Nat → Bool) : Nat → Nat → Nat
  | 0, lvl => lvl
  | fuel + 1, lvl => if bad lvl then header_depth_aux bad fuel (lvl + 1) else lvl

/-- The header-split depth `process_content` ends up using: the depth of
the last `MarkdownHeaderTextSplitter` instantiated by the Step-B loop. -/
def header_depth_search (sz : Str → Nat) (md : Str) : Nat :=
  header_depth_aux (header_oversize sz md) 5 1

/-! ## Model of langchain's RecursiveCharacterTextSplitter

`process_content` instantiates
`RecursiveCharacterTextSplitter(chunk_size=500, chunk_overlap=100,
separators=["\n\n", "\n"])`.  With the class defaults this means
`keep_separator=True` (each separator occurrence is re-attached as a
prefix of the following piece), `length_function=len` (sizes are measured
in characters) and `strip_whitespace=True` (merged chunks are stripped).
`_split_text` picks the first separator occurring in the text (falling
back to the last one), splits, merges runs of pieces shorter than
`chunk_size` with `_merge_splits` (which retains at most `chunk_overlap`
characters of trailing context), and recurses with the remaining
separators into oversize pieces; an oversize piece with no remaining
separators is appended to the output verbatim. -/

/-- Fuel-driven splitter core; every step consumes at least one
character, so fuel equal to the input length is always enough. -/
def splitOnSepAux (sep : Str) : Nat → Str → List Str
  | _, [] => [[]]
  | 0, s => [s]
  | fuel + 1, c :: rest =>
    if sep ≠ [] ∧ sep.isPrefixOf (c :: rest) then
      [] :: splitOnSepAux sep fuel (List.drop sep.length (c :: rest))
    else
      match splitOnSepAux sep fuel rest with
      | [] => [[c]]
      | l :: ls => (c :: l) :: ls

/-- Model of Python `re.split(re.escape(sep), text)` for a non-empty
literal separator (split at each leftmost non-overlapping occurrence). -/
def splitOnSep (sep : Str) (text : Str) : List Str :=
  splitOnSepAux sep text.length text

/-- Model of `_split_text_with_regex(text, sep, keep_separator=True)`:
split on the separator, re-attach each separator occurrence as a prefix
of the following piece, and drop empty pieces. -/
def split_keep_sep (sep : Str) (text : Str) : List Str :=
  match splitOnSep sep text with
  | [] => []
  | p :: ps => (p :: ps.map (fun q => sep ++ q)).filter (fun q => q ≠ [])

/-- Model of `re.search(re.escape(sep), text)` being a hit. -/
def containsSeq (sep : Str) : Str → Bool
  | [] => sep.isEmpty
  | c :: rest => sep.isPrefixOf (c :: rest) || containsSeq sep rest

/-- The separator-selection loop at the top of `_split_text`: the first
listed separator that occurs in the text wins and the remaining list
becomes `new_separators`; otherwise the last separator with `[]`. -/
def pick_sep_aux : List Str → Str → Option (Str × List Str)
  | [], _ => none
  | s :: rest, text =>
    if s = [] then some (s, [])
    else if containsSeq s text then some (s, rest)
    else pick_sep_aux rest text

def pick_separator (seps : List Str) (text : Str) : Str × List Str :=
  match pick_sep_aux seps text with
  | some r => r
  | none => (seps.getLastD [], [])

/-- Model of `_join_docs(docs, separator)` with separator `""` (the
merge separator under `keep_separator=True`) and the default
`strip_whitespace=True`. -/
def join_strip (docs : List Str) : Option Str :=
  let text := pyStrip (docs.foldl (· ++ ·) [])
  if text = [] then none else some text

/-- The overlap-trimming `while` loop inside `_merge_splits`: drop
leading pieces while the running total exceeds `chunk_overlap`, or while
adding the next piece (of length `lenNext`) would overflow `chunk_size`
and something is left to drop. -/
def trim_doc (lenNext : Nat) : List Str → Nat → List Str × Nat
  | [], total => ([], total)
  | d :: rest, total =>
    if chunk_overlap < total ∨ (chunk_size < total + lenNext ∧ 0 < total) then
      trim_doc lenNext rest (total - d.length)
    else (d :: rest, total)

/-- The main loop of `_merge_splits` over the pending splits, carrying
`current_doc`, its running `total` length and the emitted docs. -/
def merge_aux : List Str → List Str → Nat → List Str → List Str
  | [], doc, _, docs => docs ++ (join_strip doc).toList
  | d :: rest, doc, total, docs =>
    if chunk_size < total + d.length then
      let docs2 := if doc ≠ [] then docs ++ (join_strip doc).toList else docs
      let dt := if doc ≠ [] then trim_doc d.length doc total else (doc, total)
      merge_aux rest (dt.1 ++ [d]) (dt.2 + d.length) docs2
    else
      merge_aux rest (doc ++ [d]) (total + d.length) docs

/-- Model of `_merge_splits(splits, separator)` with separator `""`. -/
def merge_splits (splits : List Str) : List Str := merge_aux splits [] 0 []

/-- The per-piece loop body of `_split_text`: pieces shorter than
`chunk_size` accumulate in `_good_splits`; an oversize piece flushes the
accumulated merge and is recursed into (or emitted verbatim when no
separators remain). -/
def split_runs (recur : Str → List Str) (useRecur : Bool) :
    List Str → List Str → List Str
  | goodAcc, [] => merge_splits goodAcc
  | goodAcc, s :: rest =>
    if s.length < chunk_size then split_runs recur useRecur (goodAcc ++ [s]) rest
    else
      merge_splits goodAcc ++ (if useRecur then recur s else [s]) ++
        split_runs recur useRecur [] rest

/-- Model of `RecursiveCharacterTextSplitter._split_text(text, seps)`.
The fuel argument bounds the recursion depth by the length of the
separator list (each recursive call uses a strict suffix). -/
def split_text_aux : Nat → List Str → Str → List Str
  | 0, _, text => [text]
  | fuel + 1, seps, text =>
    let sn := pick_separator seps text
    let splits := split_keep_sep sn.1 text
    split_runs (split_text_aux fuel sn.2) (sn.2 ≠ []) [] splits

/-- The separator list `["\n\n", "\n"]` passed in `process_content`. -/
def rc_separators : List Str := [['\n', '\n'], ['\n']]

/-- Model of `text_splitter.split_text(text)` for the
`RecursiveCharacterTextSplitter` built in `process_content`. -/
def rc_split_text (text : Str) : List Str :=
  split_text_aux rc_separators.length rc_separators text

/-- Model of `text_splitter.split_documents(md_header_splits)`: each
section's content is split and every resulting chunk inherits the
section's metadata. -/
def split_documents (docs : List MDSection) : List MDSection :=
  docs.flatMap (fun d => (rc_split_text d.page_content).map (fun c => ⟨c, d.metadata⟩))

/-! ## Model of the link regex of `process_content`

`unlink_regex_pattern = r'\[(.*?)\]\((.*?)\)'` is used with `re.findall`
(link extraction) and `re.sub` with replacement `r'[\1]()'` (URL
removal).  Without `re.DOTALL` the lazy groups cannot cross a newline.
The scanners below implement the backtracking semantics: group 1 is the
shortest newline-free run followed by `](` such that a closing `)` is
reachable on the same line region; group 2 is the shortest run up to the
next `)`. -/

/-- Scan for the lazy group 2: characters up to the first `)`, failing
on a newline or end of input.  Returns the group and the rest after the
closing parenthesis. -/
def scan_paren : Str → Option (Str × Str)
  | [] => none
  | c :: rest =>
    if c = ')' then some ([], rest)
    else if c = '\n' then none
    else (scan_paren rest).map (fun gr => (c :: gr.1, gr.2))

/-- Scan for the lazy group 1 (input starts after `[`): on each `](` try
to complete group 2; on failure the `](` is absorbed into group 1 and
scanning continues, as regex backtracking would. -/
def scan_bracket_aux : Nat → Str → Option (Str × Str × Str)
  | _, [] => none
  | 0, _ => none
  | fuel + 1, ']' :: '(' :: rest2 =>
    (match scan_paren rest2 with
     | some gr => some ([], gr.1, gr.2)
     | none => (scan_bracket_aux fuel ('(' :: rest2)).map
        (fun g => (']' :: g.1, g.2.1, g.2.2)))
  | fuel + 1, c :: rest =>
    if c = '\n' then none
    else (scan_bracket_aux fuel rest).map (fun g => (c :: g.1, g.2.1, g.2.2))

def scan_bracket (s : Str) : Option (Str × Str × Str) :=
  scan_bracket_aux s.length s

/-- Model of `re.findall(unlink_regex_pattern, text)`: scan left to
right for non-overlapping matches.  The fuel starts at the input length,
which suffices because every step consumes at least one character. -/
def find_links_aux : Nat → Str → List (Str × Str)
  | 0, _ => []
  | _ + 1, [] => []
  | fuel + 1, '[' :: rest =>
    (match scan_bracket rest with
     | some g => (g.1, g.2.1) :: find_links_aux fuel g.2.2
     | none => find_links_aux fuel rest)
  | fuel + 1, _ :: rest => find_links_aux fuel rest

def find_links (s : Str) : List (Str × Str) := find_links_aux s.length s

/-- Model of `re.sub(unlink_regex_pattern, r'[\1]()', text)`. -/
def unlink_sub_aux : Nat → Str → Str
  | 0, cs => cs
  | _ + 1, [] => []
  | fuel + 1, '[' :: rest =>
    (match scan_bracket rest with
     | some g => '[' :: (g.1 ++ ']' :: '(' :: ')' :: unlink_sub_aux fuel g.2.2)
     | none => '[' :: unlink_sub_aux fuel rest)
  | fuel + 1, c :: rest => c :: unlink_sub_aux fuel rest

def unlink_sub (s : Str) : Str := unlink_sub_aux s.length s

/-! ## `process_content` (the Adaptive Chunker) -/

/-- The metadata stored with each chunk.  `links` models the structured
list serialised with `json.dumps`; `headers` models the per-level header
entries spread into the metadata dict. -/
structure ChunkMeta where
  original_id : Nat
  user_id : Nat
  title : Str
  created_at : Str
  links : List (Str × Str)
  headers : List (Nat × Str)
deriving DecidableEq

/-- One chunk as handed to the Chroma collection: its id
`f"{original_id}_{idx}"`, the embedded text and the metadata. -/
structure ChunkRec where
  id : Str
  text : Str
  meta : ChunkMeta
deriving DecidableEq

/-- The chunk id `f"{original_id}_{idx}"`. -/
def mk_chunk_id (oid idx : Nat) : Str := natDigits oid ++ '_' :: natDigits idx

/-- The chunk ids produced by two different documents, or two different
ordinals, never collide. -/
theorem mk_chunk_id_inj {a i b j : Nat} (h : mk_chunk_id a i = mk_chunk_id b j) :
    a = b ∧ i = j := by
  unfold mk_chunk_id at h
  obtain ⟨h1, h2⟩ := append_underscore_inj
    (underscore_not_mem_natDigits a) (underscore_not_mem_natDigits b) h
  exact ⟨natDigits_injective h1, natDigits_injective h2⟩

/-- The sections handed to the secondary splitter by `process_content`
(`md_header_splits` at the depth the Step-B loop settles on). -/
def header_sections (sz : Str → Nat) (md : Str) : List MDSection :=
  md_split_text (header_depth_search sz md) md

/-- The `final_splits` of `process_content`: secondary split of the
header sections. -/
def final_splits (sz : Str → Nat) (md : Str) : List MDSection :=
  split_documents (header_sections sz md)

/-- The header-path block prepended to a chunk:
`"\n".join(f"{'#' * int(k[1])} {v}" for k, v in header_metadata.items())`. -/
def header_path_text (headers : List (Nat × Str)) : Str :=
  joinNL (headers.map (fun p => List.replicate p.1 '#' ++ ' ' :: p.2))

/-- The record built for one surviving split at enumeration index `idx`:
extracted links, URL-stripped text, title and header path prefix, and
the `TEXT_PREFIX` (default `"passage: "`). -/
def chunk_record (original_id user_id : Nat) (title : Str) (created_at : Str)
    (idx : Nat) (split : MDSection) : ChunkRec :=
  let found_links := find_links split.page_content
  let chunk_text := unlink_sub split.page_content
  let text := strOf "# " ++ title ++ '\n' :: header_path_text split.metadata
      ++ '\n' :: chunk_text
  { id := mk_chunk_id original_id idx
    text := strOf "passage: " ++ text
    meta :=
      { original_id := original_id
        user_id := user_id
        title := title
        created_at := created_at
        links := found_links
        headers := split.metadata } }

/-- Model of `process_content(original_id, user_id, title, html_content,
created_at)`.  The HTML→markdown conversion
`markdownify.markdownify(html_content or "", heading_style="atx")` is the
external `markdownify` library, abstracted as the parameter `conv`; `sz`
abstracts `sys.getsizeof` (see `header_oversize`).  Splits shorter than
two characters are skipped, the enumeration index is taken over all of
`final_splits` (before the length filter), exactly as the
`for idx, split in enumerate(final_splits)` loop does. -/
def process_content (conv : Str → Str) (sz : Str → Nat)
    (original_id user_id : Nat) (title html_content : Str) (created_at : Str) :
    List ChunkRec :=
  let md_content := conv html_content
  (final_splits sz md_content).enum.foldl
    (fun acc p =>
      if p.2.page_content.length < 2 then acc
      else acc ++ [chunk_record original_id user_id title created_at p.1 p.2])
    []

/-! ## State management and the main pipeline (`embedding.py`)

The Chroma `system_state` collection holds at most one `etl_status`
record, modelled by `EtlState.lastRun`; the `note_collection` is a list
of `ChunkRec` keyed by `id` (`EtlState.index`).  Timestamps are the
fixed-format `DATETIME` strings compared lexicographically (`strLtB`).
The MySQL `content` table is passed as the list `db`; the network
success/failure of each `note_collection.upsert` batch call is the
external parameter `gw`. -/

/-- One row of the query
`SELECT co_id, us_id, co_title, co_description, co_updated FROM content
where co_updated > %(last_run)s and co_type='NOTE'`. -/
structure NoteRow where
  co_id : Nat
  us_id : Nat
  co_title : Str
  co_description : Str
  co_updated : Str
  co_type : String
deriving DecidableEq

/-- The persistent state owned by the pipeline. -/
structure EtlState where
  lastRun : Option Str
  index : List ChunkRec
deriving DecidableEq

/-- Model of `get_last_run_time()`: the stored `last_run_at` metadata if
the `etl_status` record exists, else the epoch string. -/
def get_last_run_time (st : EtlState) : Str :=
  match st.lastRun with
  | some t => t
  | none => strOf "1970-01-01 00:00:00"

/-- Model of `update_last_run_time(last_timestamp)`: overwrite the
`etl_status` record. -/
def update_last_run_time (t : Str) (st : EtlState) : EtlState :=
  { st with lastRun := some t }

/-- Model of `fetch_notes_from_mysql(last_run_time)`: the rows with
`co_updated > last_run` and `co_type='NOTE'`. -/
def fetch_notes_from_mysql (db : List NoteRow) (last_run : Str) : List NoteRow :=
  db.filter (fun r => r.co_type = "NOTE" && strLtB last_run r.co_updated)

/-- Model of `df['co_updated'].max()`. -/
def max_updated : List NoteRow → Str
  | [] => []
  | r :: rest =>
    rest.foldl (fun m x => if strLtB m x.co_updated then x.co_updated else m)
      r.co_updated

/-- Model of a Chroma `upsert` of a single record: overwrite the record
with the same id if present, else append. -/
def upsert_entry (ix : List ChunkRec) (e : ChunkRec) : List ChunkRec :=
  if ix.any (fun x => x.id = e.id) then
    ix.map (fun x => if x.id = e.id then e else x)
  else ix ++ [e]

/-- A batch upsert call upserts its records in order. -/
def upsert_list (ix : List ChunkRec) (cs : List ChunkRec) : List ChunkRec :=
  cs.foldl upsert_entry ix

/-- Model of `note_collection.delete(where={"original_id": original_id})`. -/
def delete_where (oid : Nat) (ix : List ChunkRec) : List ChunkRec :=
  ix.filter (fun e => e.meta.original_id ≠ oid)

/-- Fuel-driven batch slicing core. -/
def batchedAux (n : Nat) : Nat → List ChunkRec → List (List ChunkRec)
  | _, [] => []
  | 0, l => [l]
  | fuel + 1, l =>
    if n = 0 then []
    else l.take n :: batchedAux n fuel (l.drop n)

/-- The batch slicing `for i in range(0, len(documents), batch_size)`. -/
def batched (n : Nat) (l : List ChunkRec) : List (List ChunkRec) :=
  batchedAux n l.length l

/-- The Step-6 upsert loop: apply each batch in order; a failing batch
raises, aborting the loop (and the rest of `run_pipeline`) with the
partially-updated index. -/
def upsert_batches (gw : List ChunkRec → Bool) (ix : List ChunkRec) :
    List (List ChunkRec) → Except (List ChunkRec) (List ChunkRec)
  | [] => .ok ix
  | b :: rest =>
    if gw b then upsert_batches gw (upsert_list ix b) rest else .error ix

/-- The chunks accumulated by the Step-5 loop over the fetched rows. -/
def cycle_chunks (conv : Str → Str) (sz : Str → Nat) (df : List NoteRow) :
    List ChunkRec :=
  df.flatMap (fun r =>
    process_content conv sz r.co_id r.us_id r.co_title r.co_description r.co_updated)

/-- The Step-4 invalidation: delete the existing vectors of every
fetched document. -/
def delete_fetched (df : List NoteRow) (ix : List ChunkRec) : List ChunkRec :=
  (df.map (fun r => r.co_id)).foldl (fun i oid => delete_where oid i) ix

/-- Model of `run_pipeline()` for one cycle.  `conv` abstracts
`markdownify`, `sz` abstracts `sys.getsizeof`, `gw` gives the
success/failure of each batch upsert call, `db` is the MySQL `content`
table.  A raised batch upsert leaves the watermark untouched (the
exception propagates before Step 7); an empty fetch, or a fetch whose
documents yield no chunks, also ends the cycle without touching the
watermark. -/
def run_pipeline (conv : Str → Str) (sz : Str → Nat)
    (gw : List ChunkRec → Bool) (db : List NoteRow) (st : EtlState) : EtlState :=
  let last_run := get_last_run_time st
  let df := fetch_notes_from_mysql db last_run
  if df = [] then st
  else
    let ix1 := delete_fetched df st.index
    let chunks := cycle_chunks conv sz df
    if chunks = [] then { st with index := ix1 }
    else
      match upsert_batches gw ix1 (batched 100 chunks) with
      | .error ixp => { st with index := ixp }
      | .ok ix2 => update_last_run_time (max_updated df) { st with index := ix2 }

/-- The index transformation of one successful cycle over the fetched
rows `df`: delete-all-then-insert-all. -/
def index_cycle (conv : Str → Str) (sz : Str → Nat) (df : List NoteRow)
    (ix : List ChunkRec) : List ChunkRec :=
  upsert_list (delete_fetched df ix) (cycle_chunks conv sz df)

/-! ## Query Engine -/

/-- Insertion of one element into a list sorted by a numeric key
(stable: equal keys keep earlier elements first). -/
def insert_by (key : ChunkRec → Nat) (x : ChunkRec) : List ChunkRec → List ChunkRec
  | [] => [x]
  | y :: ys => if key y ≤ key x then y :: insert_by key x ys else x :: y :: ys

/-- Ranking by ascending distance. -/
def sort_by_key (key : ChunkRec → Nat) : List ChunkRec → List ChunkRec
  | [] => []
  | x :: xs => insert_by key x (sort_by_key key xs)

/-- Modelled from the spec: `embedding.search` is imported by
`mcp_server._search_notes` but its definition is absent from the source
tree (only its callers and the test `search_test.search_note` are
present).  Per §4.3 the engine always scopes the candidate set by the
requesting `ownerId` before ranking — consistent with
`search_note`'s `collection.query(..., where={"user_id": user_id})` —
then applies the `withHidden`/`withExternal` metadata filters, ranks
(semantic distance `dist`, or title substring matching in exact mode)
and paginates.  `hiddenP`/`externalP` abstract the hidden/external
metadata predicates; `dist` abstracts the embedding distance. -/
def search (index : List ChunkRec) (dist : ChunkRec → Nat)
    (hiddenP externalP : ChunkRec → Bool) (user_id : Nat) (query : Str)
    (exact : Bool) (size page : Nat)
    (with_hidden with_external : Bool) : List ChunkRec :=
  let owned := index.filter (fun e => e.meta.user_id = user_id)
  let vis := owned.filter (fun e =>
    (with_hidden || !hiddenP e) && (with_external || !externalP e))
  let ranked :=
    if exact then vis.filter (fun e => containsSeq query e.meta.title)
    else sort_by_key dist vis
  (ranked.drop (page * size)).take size

/-! ## Model of `diff_match_patch` delta decoding (`mcp_server.py`)

`get_note_snapshots` restores a DELTA revision with
`dmp.diff_fromDelta(base['description'], delta)` followed by
`dmp.diff_text2(diffs)`.  A delta is a tab-separated token list; `+t`
inserts the percent-decoded text `t`, `=n` copies `n` characters of the
base, `-n` skips `n` characters of the base; the decoder raises unless
the `=`/`-` counts exactly exhaust the base text. -/

inductive DiffOp
  | ins
  | del
  | equal
deriving DecidableEq

/-- Hexadecimal digit value, for percent decoding. -/
def hexVal (c : Char) : Option Nat :=
  if '0' ≤ c ∧ c ≤ '9' then some (c.toNat - 48)
  else if 'a' ≤ c ∧ c ≤ 'f' then some (c.toNat - 87)
  else if 'A' ≤ c ∧ c ≤ 'F' then some (c.toNat - 55)
  else none

/-- ASCII-faithful model of `urllib.parse.unquote`: decode `%XX` hex
pairs, leave malformed escapes untouched. -/
def pct_decode : Str → Str
  | '%' :: a :: b :: rest =>
    (match hexVal a, hexVal b with
     | some x, some y => Char.ofNat (16 * x + y) :: pct_decode rest
     | _, _ => '%' :: pct_decode (a :: b :: rest))
  | c :: rest => c :: pct_decode rest
  | [] => []

/-- Model of Python `int(param)` restricted to ASCII decimal literals
with an optional sign. -/
def parse_digits : Str → Option Nat
  | [] => none
  | ds =>
    if ds.all (fun c => '0' ≤ c ∧ c ≤ '9') then
      some (decValue ds)
    else none

def parse_int (s : Str) : Option Int :=
  match s with
  | '-' :: ds => (parse_digits ds).map (fun n => -(n : Int))
  | '+' :: ds => (parse_digits ds).map (fun n => (n : Int))
  | ds => (parse_digits ds).map (fun n => (n : Int))

/-- The token loop of `diff_fromDelta`, carrying the read pointer into
`text1`. -/
def from_delta_aux (text1 : Str) : List Str → Nat → Except Unit (List (DiffOp × Str))
  | [], ptr => if ptr = text1.length then .ok [] else .error ()
  | tok :: rest, ptr =>
    match tok with
    | [] => from_delta_aux text1 rest ptr
    | '+' :: param =>
      (from_delta_aux text1 rest ptr).map
        (fun ds => (DiffOp.ins, pct_decode param) :: ds)
    | '-' :: param =>
      (match parse_int param with
       | some n =>
         if n < 0 then .error ()
         else
           (from_delta_aux text1 rest (ptr + n.toNat)).map
             (fun ds => (DiffOp.del, (text1.drop ptr).take n.toNat) :: ds)
       | none => .error ())
    | '=' :: param =>
      (match parse_int param with
       | some n =>
         if n < 0 then .error ()
         else
           (from_delta_aux text1 rest (ptr + n.toNat)).map
             (fun ds => (DiffOp.equal, (text1.drop ptr).take n.toNat) :: ds)
       | none => .error ())
    | _ => .error ()

/-- Model of `dmp.diff_fromDelta(text1, delta)`; the `Except` error is
the `ValueError` raised on a malformed delta. -/
def diff_from_delta (text1 delta : Str) : Except Unit (List (DiffOp × Str)) :=
  from_delta_aux text1 (splitOnSep ['\t'] delta) 0

/-- Model of `dmp.diff_text2(diffs)`: concatenate everything except
deletions. -/
def diff_text2 (diffs : List (DiffOp × Str)) : Str :=
  (diffs.filter (fun d => d.1 ≠ DiffOp.del)).foldl (fun a d => a ++ d.2) []

/-! ## The Revision Resolver (`get_note_snapshots` of `mcp_server.py`) -/

/-- One content row as returned by the notebook API: a NOTE revision of
type `SNAPSHOT` or `DELTA`.  `snapshot_id` models
`item.get('option', {}).get('SNAPSHOT_ID')`. -/
structure HistItem where
  id : Nat
  type : String
  description : Str
  updated : Str
  snapshot_id : Option Nat
deriving DecidableEq

/-- One entry of the `snapshots` result list. -/
structure HistEntry where
  id : Nat
  type : String
  updated : Str
  content : Str
deriving DecidableEq

/-- The `logger.error` traces recorded while resolving. -/
inductive HistTrace
  | snapshotMissing (snapshot_id : Nat) (item_id : Nat)
  | restoreFailed (item_id : Nat)
deriving DecidableEq

/-- Model of `snapshot_map = {item['id']: item for item in snapshots}`:
on duplicate ids the later record wins. -/
def snapshot_lookup (snaps : List HistItem) (i : Nat) : Option HistItem :=
  snaps.reverse.find? (fun s => s.id = i)

/-- The body of the restore loop of `get_note_snapshots` for one item:
either a produced entry, or none plus the recorded trace.  Mirrors the
Python truthiness test `if snapshot_id:` (absent or zero falls through
to rendering the raw description). -/
def resolve_item (toMd : Str → Str) (snaps : List HistItem) (item : HistItem) :
    Option HistEntry × List HistTrace :=
  if item.type = "DELTA" then
    match item.snapshot_id with
    | some sid =>
      if sid ≠ 0 then
        match snapshot_lookup snaps sid with
        | some base =>
          (match diff_from_delta base.description item.description with
           | .ok diffs =>
             (some ⟨item.id, item.type, item.updated, toMd (diff_text2 diffs)⟩, [])
           | .error _ => (none, [.restoreFailed item.id]))
        | none => (none, [.snapshotMissing sid item.id])
      else (some ⟨item.id, item.type, item.updated, toMd item.description⟩, [])
    | none => (some ⟨item.id, item.type, item.updated, toMd item.description⟩, [])
  else (some ⟨item.id, item.type, item.updated, toMd item.description⟩, [])

/-- Model of `get_note_snapshots`: `contents` is the requested page of
SNAPSHOT and DELTA rows, `snaps` the fetched snapshot set (page 0 of the
SNAPSHOT listing); `toMd` abstracts the display conversion
`to_markdown`.  Returns the resolved entries in page order together
with the recorded omission traces. -/
def get_note_snapshots (toMd : Str → Str) (contents snaps : List HistItem) :
    List HistEntry × List HistTrace :=
  contents.foldl
    (fun acc item =>
      let rt := resolve_item toMd snaps item
      (acc.1 ++ rt.1.toList, acc.2 ++ rt.2))
    ([], [])

/-! ## Heading-block extraction and relocation (`notebook_client.py`) -/

/-- A match of the heading regex `(<h([1-6])\b[^>]*>(.*?)</h\2>)`:
span `[start, stop)`, heading level, and inner text (group 3). -/
structure HeadMatch where
  start : Nat
  stop : Nat
  level : Nat
  inner : Str
deriving DecidableEq

/-- Word characters for the `\b` boundary (ASCII-faithful `\w`). -/
def isWordChar (c : Char) : Bool := c.isAlphanum || c = '_'

/-- The digit class `[1-6]` with its level value. -/
def digitLevel (c : Char) : Option Nat :=
  if '1' ≤ c ∧ c ≤ '6' then some (c.toNat - 48) else none

/-- Does `</hD>` (with `h` case-insensitive, `D` the level digit) start
here? -/
def close_tag_at (lvlc : Char) : Str → Bool
  | '<' :: '/' :: h :: d :: '>' :: _ => (h = 'h' || h = 'H') && d = lvlc
  | _ => false

/-- Lazy scan of group 3 up to the matching `</hD>`; under `re.DOTALL`
the scan crosses newlines.  Returns the inner text and the input
remaining after the close tag. -/
def scan_close (lvlc : Char) : Str → Option (Str × Str)
  | [] => none
  | c :: rest =>
    if close_tag_at lvlc (c :: rest) then some ([], (c :: rest).drop 5)
    else (scan_close lvlc rest).map (fun gr => (c :: gr.1, gr.2))

/-- Attempt to match the heading regex at the current position.
Returns (level, inner text, match length, rest after the match). -/
def match_head_at (cs : Str) : Option (Nat × Str × Nat × Str) :=
  match cs with
  | '<' :: h :: d :: rest =>
    if h = 'h' ∨ h = 'H' then
      match digitLevel d with
      | some lvl =>
        if (match rest with | c :: _ => !isWordChar c | [] => true) then
          match rest.dropWhile (fun c => c ≠ '>') with
          | '>' :: body =>
            (match scan_close d body with
             | some gr =>
               some (lvl, gr.1,
                 3 + (rest.takeWhile (fun c => c ≠ '>')).length + 1 + gr.1.length + 5,
                 gr.2)
             | none => none)
          | _ => none
        else none
      | none => none
    else none
  | _ => none


theorem scan_close_length {lvlc : Char} :
    ∀ {cs g r : Str}, scan_close lvlc cs = some (g, r) →
      r.length + 5 + g.length = cs.length := by
  intro cs
  induction cs with
  | nil => intro g r h; simp [scan_close] at h
  | cons c rest ih =>
    intro g r h
    rw [scan_close] at h
    split at h
    · rename_i hc
      injection h with h
      injection h with h1 h2
      subst h1
      subst h2
      have h5 : 5 ≤ (c :: rest).length := by
        unfold close_tag_at at hc
        rcases rest with _ | ⟨a, _ | ⟨b, _ | ⟨e, _ | ⟨f, g'⟩⟩⟩⟩ <;> simp_all
      simp only [List.length_drop, List.length_nil]
      omega
    · cases hsc : scan_close lvlc rest with
      | none => rw [hsc] at h; simp at h
      | some gr =>
        rw [hsc] at h
        simp only [Option.map_some'] at h
        injection h with h
        injection h with h1 h2
        subst h1
        subst h2
        have := ih (g := gr.1) (r := gr.2) (by rw [hsc])
        simp only [List.length_cons]
        omega

theorem match_head_at_length :
    ∀ {cs : Str} {lvl : Nat} {inner : Str} {len : Nat} {rest : Str},
      match_head_at cs = some (lvl, inner, len, rest) →
      rest.length + len = cs.length ∧ 0 < len := by
  intro cs lvl inner len rest h
  unfold match_head_at at h
  split at h
  case h_2 => simp at h
  case h_1 c0 hh d tl =>
    split at h
    case isFalse => simp at h
    case isTrue =>
      split at h
      case h_2 => simp at h
      case h_1 lv hd =>
        split at h
        case isFalse => simp at h
        case isTrue =>
          split at h
          case h_2 => simp at h
          case h_1 body hdrop =>
            split at h
            case h_2 => simp at h
            case h_1 gr hsc =>
              injection h with h
              injection h with h1 h
              injection h with h2 h
              injection h with h3 h4
              have hlen := @scan_close_length d body gr.1 gr.2 (by rw [hsc])
              have htd := congrArg List.length
                (List.takeWhile_append_dropWhile (p := fun c => c ≠ '>') (l := tl))
              rw [hdrop] at htd
              simp only [List.length_append, List.length_cons] at htd
              subst h3 h4
              simp only [List.length_cons]
              omega

/-- Fuel-driven scanning core of the heading `finditer` model; every
step consumes at least one character. -/
def scan_heads_aux : Nat → Nat → Str → List HeadMatch
  | _, _, [] => []
  | 0, _, _ => []
  | fuel + 1, pos, c :: rest =>
    match match_head_at (c :: rest) with
    | some (lvl, inner, len, after) =>
      ⟨pos, pos + len, lvl, inner⟩ :: scan_heads_aux fuel (pos + len) after
    | none => scan_heads_aux fuel (pos + 1) rest

/-- Model of `pattern.finditer(html)` (as `matches = list(...)` in
`_extract_and_remove_card`): scan left to right, emitting
non-overlapping matches with their spans; scanning resumes after each
match. -/
def find_headings (html : Str) : List HeadMatch :=
  scan_heads_aux html.length 0 html

/-- Model of `NotebookClient._extract_and_remove_card(html, header_text)`:
find the first heading whose inner text contains `header_text`
(`header_text in match.group(3)`), cut the block from its start up to
the first later heading of level at most the matched one (end of
document if none), and return the html without the block together with
the block. -/
def extract_and_remove_card (html header_text : Str) : Str × Option Str :=
  let ms := find_headings html
  match ms.find? (fun m => containsSeq header_text m.inner) with
  | none => (html, none)
  | some m =>
    let endIdx :=
      match ms.find? (fun m2 => m.start < m2.start && m2.level ≤ m.level) with
      | some m2 => m2.start
      | none => html.length
    (html.take m.start ++ html.drop endIdx,
     some ((html.drop m.start).take (endIdx - m.start)))

/-! ## The Block Relocator (`move_kanban_card_logic`)

The notebook store behind `NotebookClient` is modelled as the list of
NOTE rows the API returns (`notes`) plus the SNAPSHOT rows created by
`_create_snapshot` (`snapshots`, as (parentId, description) pairs).
`get_note_by_title` scans the fetched notes in order for an exact title
match; `update_note_content` patches one note's description and appends
a snapshot of the updated state. -/

structure WNote where
  id : Nat
  title : Str
  description : Str
deriving DecidableEq

structure World where
  notes : List WNote
  snapshots : List (Nat × Str)
deriving DecidableEq

/-- Model of `NotebookClient.get_note_by_title(title)`. -/
def get_note_by_title (w : World) (t : Str) : Option WNote :=
  w.notes.find? (fun n => n.title = t)

/-- Model of `NotebookClient.update_note_content(note_id, data, new)`
(PATCH of the description plus `_create_snapshot`). -/
def update_note_content (w : World) (note_id : Nat) (new_content : Str) : World :=
  { notes := w.notes.map (fun n =>
      if n.id = note_id then { n with description := new_content } else n)
    snapshots := w.snapshots ++ [(note_id, new_content)] }

/-- Model of `NotebookClient.move_kanban_card_logic(source_title,
target_title, header_text)`: resolve both notes by title, extract the
heading block from the source, append it to the target, update target
then source (each with a snapshot).  The falsy test
`if not card_content:` treats both a missing and an empty block as "not
found". -/
def move_kanban_card_logic (w : World) (source_title target_title header_text : Str) :
    World × Str :=
  match get_note_by_title w source_title, get_note_by_title w target_title with
  | some source_note, some target_note =>
    let ec := extract_and_remove_card source_note.description header_text
    (match ec.2 with
     | some card_content =>
       if card_content = [] then
         (w, strOf "Error: Card '" ++ header_text ++ strOf "' not found in '"
             ++ source_title ++ strOf "'.")
       else
         let w1 := update_note_content w target_note.id
           (target_note.description ++ '\n' :: card_content)
         let w2 := update_note_content w1 source_note.id ec.1
         (w2, strOf "Moved card '" ++ header_text ++ strOf "' from '"
             ++ source_title ++ strOf "' to '" ++ target_title
             ++ strOf "' and created snapshots for both.")
     | none =>
       (w, strOf "Error: Card '" ++ header_text ++ strOf "' not found in '"
           ++ source_title ++ strOf "'."))
  | _, _ => (w, strOf "Error: Source or Target note not found.")

/-! ## Watermark theorems (claims C1, C8, C10) -/

theorem upsert_batches_all_ok (gw : List ChunkRec → Bool) :
    ∀ (bs : List (List ChunkRec)) (ix : List ChunkRec), (∀ b ∈ bs, gw b = true) →
      upsert_batches gw ix bs = .ok (bs.foldl upsert_list ix) := by
  intro bs
  induction bs with
  | nil => intro ix _; rfl
  | cons b rest ih =>
    intro ix hok
    have hb : gw b = true := hok b (List.mem_cons_self _ _)
    simp only [upsert_batches, hb, if_pos, List.foldl_cons]
    exact ih _ (fun b' hb' => hok b' (List.mem_cons_of_mem _ hb'))

theorem upsert_batches_has_failure (gw : List ChunkRec → Bool) :
    ∀ (bs : List (List ChunkRec)) (ix : List ChunkRec), (∃ b ∈ bs, gw b = false) →
      ∃ ixp, upsert_batches gw ix bs = .error ixp := by
  intro bs
  induction bs with
  | nil => intro ix h; simp at h
  | cons b rest ih =>
    intro ix h
    by_cases hb : gw b = true
    · simp only [upsert_batches, hb, if_pos]
      rcases h with ⟨b', hmem, hfail⟩
      rcases List.mem_cons.mp hmem with heq | hmem'
      · subst heq; rw [hb] at hfail; cases hfail
      · exact ih _ ⟨b', hmem', hfail⟩
    · refine ⟨ix, ?_⟩
      simp only [upsert_batches]
      rw [if_neg hb]

/-- C1 — if upserting any batch of the cycle's chunks fails, the cycle
never reaches the Step-7 commit: the watermark after `run_pipeline`
equals the watermark before. -/
theorem upsert_failure_keeps_watermark (conv : Str → Str) (sz : Str → Nat)
    (gw : List ChunkRec → Bool) (db : List NoteRow) (st : EtlState)
    (hfail : ∃ b ∈ batched 100 (cycle_chunks conv sz
        (fetch_notes_from_mysql db (get_last_run_time st))), gw b = false) :
    (run_pipeline conv sz gw db st).lastRun = st.lastRun := by
  unfold run_pipeline
  by_cases hdf : fetch_notes_from_mysql db (get_last_run_time st) = []
  · rw [hdf] at hfail
    simp only [cycle_chunks, List.flatMap_nil] at hfail
    simp [batched, batchedAux] at hfail
  · by_cases hch : cycle_chunks conv sz (fetch_notes_from_mysql db (get_last_run_time st)) = []
    · rw [hch] at hfail
      simp [batched, batchedAux] at hfail
    · obtain ⟨ixp, herr⟩ := upsert_batches_has_failure gw _
        (delete_fetched (fetch_notes_from_mysql db (get_last_run_time st)) st.index) hfail
      simp only [hdf, hch, reduceIte, if_neg, herr]

def c1_note : NoteRow :=
  { co_id := 3, us_id := 9, co_title := strOf "T",
    co_description := strOf "hello world",
    co_updated := strOf "2024-01-01 00:00:00", co_type := "NOTE" }

def c1_st : EtlState := { lastRun := some (strOf "2020-01-01 00:00:00"), index := [] }

theorem upsert_failure_keeps_watermark_witness :
    (∃ b ∈ batched 100 (cycle_chunks id (fun s => s.length)
        (fetch_notes_from_mysql [c1_note] (get_last_run_time c1_st))),
      (fun _ => false : List ChunkRec → Bool) b = false) ∧
    (run_pipeline id (fun s => s.length) (fun _ => false) [c1_note] c1_st).lastRun
      = c1_st.lastRun :=
  ⟨by decide, upsert_failure_keeps_watermark _ _ _ _ _ (by decide)⟩

/-- C8 (amended) — a cycle that fetches a non-empty document set,
produces at least one chunk and upserts every batch successfully
commits the watermark to the maximum `co_updated` over the fetched
documents. -/
theorem commit_sets_watermark_max (conv : Str → Str) (sz : Str → Nat)
    (gw : List ChunkRec → Bool) (db : List NoteRow) (st : EtlState)
    (hch : cycle_chunks conv sz (fetch_notes_from_mysql db (get_last_run_time st)) ≠ [])
    (hok : ∀ b ∈ batched 100 (cycle_chunks conv sz
        (fetch_notes_from_mysql db (get_last_run_time st))), gw b = true) :
    (run_pipeline conv sz gw db st).lastRun =
      some (max_updated (fetch_notes_from_mysql db (get_last_run_time st))) := by
  unfold run_pipeline
  have hdf : fetch_notes_from_mysql db (get_last_run_time st) ≠ [] := by
    intro hdf
    rw [hdf] at hch
    simp [cycle_chunks] at hch
  have hrun := upsert_batches_all_ok gw
    (batched 100 (cycle_chunks conv sz (fetch_notes_from_mysql db (get_last_run_time st))))
    (delete_fetched (fetch_notes_from_mysql db (get_last_run_time st)) st.index) hok
  simp only [hdf, hch, reduceIte, if_neg, hrun]
  rfl

def c8w_note : NoteRow :=
  { co_id := 4, us_id := 9, co_title := strOf "T",
    co_description := strOf "some note body",
    co_updated := strOf "2024-03-05 10:00:00", co_type := "NOTE" }

def c8w_st : EtlState := { lastRun := some (strOf "2020-01-01 00:00:00"), index := [] }

theorem commit_sets_watermark_max_witness :
    (cycle_chunks id (fun s => s.length)
      (fetch_notes_from_mysql [c8w_note] (get_last_run_time c8w_st)) ≠ []) ∧
    (run_pipeline id (fun s => s.length) (fun _ => true) [c8w_note] c8w_st).lastRun
      = some (max_updated (fetch_notes_from_mysql [c8w_note] (get_last_run_time c8w_st))) :=
  ⟨by decide, commit_sets_watermark_max _ _ _ _ _ (by decide) (by decide)⟩

def c8_note : NoteRow :=
  { co_id := 5, us_id := 9, co_title := strOf "T", co_description := [],
    co_updated := strOf "2024-01-01 00:00:00", co_type := "NOTE" }

def c8_st : EtlState := { lastRun := some (strOf "2020-01-01 00:00:00"), index := [] }

/-- C8 counterexample — a cycle whose fetched document produces zero
chunks (here: an empty body) completes the invalidate and upsert steps
without error, yet skips the commit (`if documents:` is false), so the
watermark is not set to `max(co_updated)`. -/
theorem commit_watermark_skipped_counterexample :
    fetch_notes_from_mysql [c8_note] (get_last_run_time c8_st) = [c8_note] ∧
    (∀ b ∈ batched 100 (cycle_chunks id (fun s => s.length)
        (fetch_notes_from_mysql [c8_note] (get_last_run_time c8_st))),
      (fun _ => true : List ChunkRec → Bool) b = true) ∧
    (run_pipeline id (fun s => s.length) (fun _ => true) [c8_note] c8_st).lastRun ≠
      some (max_updated (fetch_notes_from_mysql [c8_note] (get_last_run_time c8_st))) :=
  ⟨by decide, by decide, by decide⟩

/-- C10 (amended) — with no stored state the watermark reads as the
epoch string `'1970-01-01 00:00:00'`, and the first cycle fetches
exactly the NOTE rows whose `co_updated` is strictly greater than the
epoch. -/
theorem fresh_watermark_epoch (ix : List ChunkRec) (db : List NoteRow) (r : NoteRow) :
    get_last_run_time { lastRun := none, index := ix } = strOf "1970-01-01 00:00:00" ∧
    (r ∈ fetch_notes_from_mysql db
        (get_last_run_time { lastRun := none, index := ix }) ↔
      r ∈ db ∧ r.co_type = "NOTE" ∧
        strLtB (strOf "1970-01-01 00:00:00") r.co_updated = true) := by
  refine ⟨rfl, ?_⟩
  show r ∈ List.filter _ db ↔ _
  rw [List.mem_filter]
  constructor
  · intro ⟨h1, h2⟩
    simp only [Bool.and_eq_true, decide_eq_true_eq] at h2
    exact ⟨h1, h2.1, h2.2⟩
  · intro ⟨h1, h2, h3⟩
    refine ⟨h1, ?_⟩
    simp only [Bool.and_eq_true, decide_eq_true_eq]
    exact ⟨h2, h3⟩

def c10_note : NoteRow :=
  { co_id := 1, us_id := 1, co_title := strOf "t", co_description := strOf "d",
    co_updated := strOf "1970-01-01 00:00:00", co_type := "NOTE" }

/-- C10 counterexample — a NOTE whose `co_updated` equals the epoch is
not fetched by the first cycle: "fetches every NOTE document regardless
of when it was last updated" fails at the epoch boundary because the
SQL comparison `co_updated > last_run` is strict. -/
theorem fresh_watermark_epoch_boundary :
    c10_note ∈ [c10_note] ∧ c10_note.co_type = "NOTE" ∧
    fetch_notes_from_mysql [c10_note]
      (get_last_run_time { lastRun := none, index := [] }) = [] := by
  refine ⟨List.mem_singleton_self _, rfl, ?_⟩
  decide

/-! ## Query scoping (claim C4) -/

theorem mem_insert_by (key : ChunkRec → Nat) (x : ChunkRec) :
    ∀ (l : List ChunkRec) (e : ChunkRec), e ∈ insert_by key x l → e = x ∨ e ∈ l := by
  intro l
  induction l with
  | nil => intro e he; simp [insert_by] at he; exact Or.inl he
  | cons y ys ih =>
    intro e he
    unfold insert_by at he
    split at he
    · rcases List.mem_cons.mp he with h | h
      · exact Or.inr (List.mem_cons.mpr (Or.inl h))
      · rcases ih e h with h' | h'
        · exact Or.inl h'
        · exact Or.inr (List.mem_cons.mpr (Or.inr h'))
    · rcases List.mem_cons.mp he with h | h
      · exact Or.inl h
      · exact Or.inr h

theorem mem_sort_by_key (key : ChunkRec → Nat) :
    ∀ (l : List ChunkRec) (e : ChunkRec), e ∈ sort_by_key key l → e ∈ l := by
  intro l
  induction l with
  | nil => intro e he; simp [sort_by_key] at he
  | cons x xs ih =>
    intro e he
    unfold sort_by_key at he
    rcases mem_insert_by key x _ e he with h | h
    · exact h ▸ List.mem_cons_self _ _
    · exact List.mem_cons_of_mem _ (ih e h)

/-- C4 — the query layer always scopes the candidate set by the
requesting owner before any ranking, so a search by owner `u` never
returns a chunk whose metadata carries a different owner `v`. -/
theorem search_owner_scoped (index : List ChunkRec) (dist : ChunkRec → Nat)
    (hiddenP externalP : ChunkRec → Bool) (u v : Nat) (q : Str) (exact : Bool)
    (size page : Nat) (wh we : Bool) (huv : u ≠ v) :
    ∀ e ∈ search index dist hiddenP externalP u q exact size page wh we,
      e.meta.user_id ≠ v := by
  intro e he
  unfold search at he
  have he2 := List.mem_of_mem_drop (List.mem_of_mem_take he)
  have howned : e ∈ index.filter (fun e => e.meta.user_id = u) := by
    split at he2
    · exact List.mem_of_mem_filter (List.mem_of_mem_filter he2)
    · exact List.mem_of_mem_filter (mem_sort_by_key dist _ e he2)
  have := List.of_mem_filter howned
  simp only [decide_eq_true_eq] at this
  rw [this]
  exact huv

def c4_index : List ChunkRec :=
  [ { id := strOf "1_0", text := strOf "alpha",
      meta := { original_id := 1, user_id := 1, title := strOf "a",
                created_at := strOf "ts", links := [], headers := [] } },
    { id := strOf "2_0", text := strOf "beta",
      meta := { original_id := 2, user_id := 2, title := strOf "b",
                created_at := strOf "ts", links := [], headers := [] } } ]

theorem search_owner_scoped_witness :
    (1 : Nat) ≠ 2 ∧
    (search c4_index (fun _ => 0) (fun _ => false) (fun _ => false)
        1 (strOf "q") false 20 0 true true).all
      (fun e => e.meta.user_id ≠ 2) = true := by
  refine ⟨by decide, ?_⟩
  rw [List.all_eq_true]
  intro e he
  simpa using search_owner_scoped c4_index (fun _ => 0) (fun _ => false) (fun _ => false)
    1 2 (strOf "q") false 20 0 true true (by decide) e he

/-! ## Relocation failure paths (claim C9) -/

/-- C9 (amended) — every failing relocation performs no mutation: when
either document fails to resolve by title the result is the fixed
message `"Error: Source or Target note not found."` (which does not
name the missing title), and when both resolve but no heading block is
extracted the result is an error naming the heading and the source
title; in both cases the store (notes and snapshots) is returned
unchanged. -/
theorem relocate_failure_no_mutation (w : World) (src tgt hdr : Str) :
    ((get_note_by_title w src = none ∨ get_note_by_title w tgt = none) →
      move_kanban_card_logic w src tgt hdr =
        (w, strOf "Error: Source or Target note not found.")) ∧
    (∀ sn tn, get_note_by_title w src = some sn → get_note_by_title w tgt = some tn →
      ((extract_and_remove_card sn.description hdr).2 = none ∨
        (extract_and_remove_card sn.description hdr).2 = some []) →
      move_kanban_card_logic w src tgt hdr =
        (w, strOf "Error: Card '" ++ hdr ++ strOf "' not found in '"
            ++ src ++ strOf "'.")) := by
  constructor
  · intro hmiss
    unfold move_kanban_card_logic
    rcases hs : get_note_by_title w src with _ | sn
    · rfl
    · rcases ht : get_note_by_title w tgt with _ | tn
      · rfl
      · rcases hmiss with hm | hm
        · rw [hs] at hm; cases hm
        · rw [ht] at hm; cases hm
  · intro sn tn hs ht hcard
    unfold move_kanban_card_logic
    rw [hs, ht]
    rcases hcard with hc | hc
    · simp only [hc]
    · simp only [hc]
      rfl

def c9_world : World :=
  { notes := [ { id := 1, title := strOf "Beta", description := strOf "<h1>A</h1>x" } ]
    snapshots := [] }

/-- C9 counterexample — when the source document "Alpha" cannot be
resolved, the returned error is the fixed string
`"Error: Source or Target note not found."`: it does not name the
missing entity (the title "Alpha" does not occur in it), contradicting
the claim as stated; the store is still unmutated. -/
theorem relocate_error_unnamed_counterexample :
    get_note_by_title c9_world (strOf "Alpha") = none ∧
    (move_kanban_card_logic c9_world (strOf "Alpha") (strOf "Beta") (strOf "A")).1
      = c9_world ∧
    (move_kanban_card_logic c9_world (strOf "Alpha") (strOf "Beta") (strOf "A")).2
      = strOf "Error: Source or Target note not found." ∧
    containsSeq (strOf "Alpha")
      (move_kanban_card_logic c9_world (strOf "Alpha") (strOf "Beta") (strOf "A")).2
      = false := by
  refine ⟨by decide, by decide, by decide, by decide⟩

def c9w_world : World :=
  { notes :=
      [ { id := 1, title := strOf "Src", description := strOf "<h1>A</h1>x" },
        { id := 2, title := strOf "Tgt", description := strOf "<h1>B</h1>y" } ]
    snapshots := [] }

theorem relocate_failure_no_mutation_witness :
    (get_note_by_title c9w_world (strOf "Missing") = none ∨
      get_note_by_title c9w_world (strOf "Tgt") = none) ∧
    move_kanban_card_logic c9w_world (strOf "Missing") (strOf "Tgt") (strOf "A") =
      (c9w_world, strOf "Error: Source or Target note not found.") ∧
    move_kanban_card_logic c9w_world (strOf "Src") (strOf "Tgt") (strOf "Z") =
      (c9w_world, strOf "Error: Card '" ++ strOf "Z" ++ strOf "' not found in '"
          ++ strOf "Src" ++ strOf "'.") :=
  ⟨Or.inl (by decide),
   (relocate_failure_no_mutation c9w_world (strOf "Missing") (strOf "Tgt") (strOf "A")).1
     (Or.inl (by decide)),
   (relocate_failure_no_mutation c9w_world (strOf "Src") (strOf "Tgt") (strOf "Z")).2
     { id := 1, title := strOf "Src", description := strOf "<h1>A</h1>x" }
     { id := 2, title := strOf "Tgt", description := strOf "<h1>B</h1>y" }
     (by decide) (by decide) (Or.inl (by decide))⟩

/-! ## Header-depth minimality (claim C5) -/

theorem header_depth_aux_spec (bad : Nat → Bool) :
    ∀ (fuel lvl : Nat),
      lvl ≤ header_depth_aux bad fuel lvl ∧
      header_depth_aux bad fuel lvl ≤ lvl + fuel ∧
      (∀ d, lvl ≤ d → d < header_depth_aux bad fuel lvl → bad d = true) ∧
      (bad (header_depth_aux bad fuel lvl) = false ∨
        header_depth_aux bad fuel lvl = lvl + fuel) := by
  intro fuel
  induction fuel with
  | zero =>
    intro lvl
    simp only [header_depth_aux]
    exact ⟨Nat.le_refl _, by omega, fun d h1 h2 => absurd h2 (by omega), Or.inr rfl⟩
  | succ f ih =>
    intro lvl
    unfold header_depth_aux
    by_cases hb : bad lvl = true
    · rw [if_pos hb]
      obtain ⟨ih1, ih2, ih3, ih4⟩ := ih (lvl + 1)
      refine ⟨by omega, by omega, ?_, ?_⟩
      · intro d h1 h2
        rcases Nat.eq_or_lt_of_le h1 with heq | hlt
        · exact heq ▸ hb
        · exact ih3 d hlt h2
      · rcases ih4 with h | h
        · exact Or.inl h
        · exact Or.inr (by omega)
    · rw [if_neg hb]
      exact ⟨Nat.le_refl _, by omega, fun d h1 h2 => absurd h2 (by omega),
        Or.inl (Bool.not_eq_true _ ▸ by simpa using hb)⟩

/-- C5 — the header-split depth `process_content` ends up using is the
smallest depth in 1..6 at which no section of the depth-split exceeds
the size threshold, or 6 when every depth up to 6 still has an
oversize section. -/
theorem header_depth_minimal (sz : Str → Nat) (md : Str) :
    1 ≤ header_depth_search sz md ∧ header_depth_search sz md ≤ 6 ∧
    (∀ d, 1 ≤ d → d < header_depth_search sz md →
      ∃ s ∈ md_split_text d md, chunk_size < sz s.page_content) ∧
    ((∀ s ∈ md_split_text (header_depth_search sz md) md,
        sz s.page_content ≤ chunk_size) ∨
      header_depth_search sz md = 6) := by
  have hdef : header_depth_search sz md = header_depth_aux (header_oversize sz md) 5 1 := rfl
  obtain ⟨h1, h2, h3, h4⟩ := header_depth_aux_spec (header_oversize sz md) 5 1
  rw [hdef]
  refine ⟨h1, by omega, ?_, ?_⟩
  · intro d hd1 hd2
    have := h3 d hd1 hd2
    unfold header_oversize at this
    rw [List.any_eq_true] at this
    obtain ⟨s, hs, hlt⟩ := this
    exact ⟨s, hs, by simpa using hlt⟩
  · rcases h4 with h | h
    · left
      intro s hs
      unfold header_oversize at h
      rw [List.any_eq_false] at h
      have := h s hs
      simpa using this
    · right
      omega

def c5_md : Str :=
  strOf "# A\n" ++ List.replicate 300 'x' ++ strOf "\n## B\n" ++ List.replicate 300 'y'

theorem header_depth_minimal_witness :
    header_depth_search (fun s => s.length) c5_md = 2 ∧
    (∃ s ∈ md_split_text 1 c5_md, chunk_size < s.page_content.length) ∧
    (md_split_text 2 c5_md).all
      (fun s => s.page_content.length ≤ chunk_size) = true := by
  refine ⟨by decide, ?_, by decide⟩
  exact (header_depth_minimal (fun s => s.length) c5_md).2.2.1 1 (by omega) (by decide)

/-! ## Delta resolution (claim C2) -/

theorem get_note_snapshots_eq (toMd : Str → Str) (snaps : List HistItem) :
    ∀ (contents : List HistItem),
      get_note_snapshots toMd contents snaps =
        (contents.filterMap (fun i => (resolve_item toMd snaps i).1),
         contents.flatMap (fun i => (resolve_item toMd snaps i).2)) := by
  have hgen : ∀ (contents : List HistItem) (acc : List HistEntry × List HistTrace),
      contents.foldl
        (fun acc item =>
          let rt := resolve_item toMd snaps item
          (acc.1 ++ rt.1.toList, acc.2 ++ rt.2)) acc =
      (acc.1 ++ contents.filterMap (fun i => (resolve_item toMd snaps i).1),
       acc.2 ++ contents.flatMap (fun i => (resolve_item toMd snaps i).2)) := by
    intro contents
    induction contents with
    | nil => intro acc; simp
    | cons item rest ih =>
      intro acc
      simp only [List.foldl_cons, ih, List.filterMap_cons, List.flatMap_cons]
      cases hr : (resolve_item toMd snaps item).1 with
      | none => simp [hr, Option.toList]
      | some e => simp [hr, Option.toList]
  intro contents
  unfold get_note_snapshots
  rw [hgen]
  simp

theorem resolve_item_id (toMd : Str → Str) (snaps : List HistItem) (item : HistItem) :
    ∀ e, (resolve_item toMd snaps item).1 = some e → e.id = item.id := by
  intro e he
  unfold resolve_item at he
  split at he
  · split at he
    · split at he
      · split at he
        · split at he
          · injection he with he; rw [← he]
          · cases he
        · cases he
      · injection he with he; rw [← he]
    · injection he with he; rw [← he]
  · injection he with he; rw [← he]

/-- C2 — a Delta node whose referenced snapshot is in the fetched
snapshot set resolves to the diff applied against that snapshot's full
content (then display-converted); a Delta whose referenced snapshot is
absent is excluded from the result with a recorded trace, while every
other node of the page still resolves. -/
theorem delta_resolution (toMd : Str → Str) (contents snaps : List HistItem)
    (hids : (contents.map (fun i => i.id)).Nodup) :
    (∀ item ∈ contents, item.type = "DELTA" →
      ∀ sid, item.snapshot_id = some sid → sid ≠ 0 →
        ((∀ base, snapshot_lookup snaps sid = some base →
          ∀ dd, diff_from_delta base.description item.description = .ok dd →
            (⟨item.id, item.type, item.updated, toMd (diff_text2 dd)⟩ : HistEntry)
              ∈ (get_note_snapshots toMd contents snaps).1) ∧
         (snapshot_lookup snaps sid = none →
           (∀ r ∈ (get_note_snapshots toMd contents snaps).1, r.id ≠ item.id) ∧
           HistTrace.snapshotMissing sid item.id
             ∈ (get_note_snapshots toMd contents snaps).2))) ∧
    (∀ item ∈ contents, item.type ≠ "DELTA" →
      (⟨item.id, item.type, item.updated, toMd item.description⟩ : HistEntry)
        ∈ (get_note_snapshots toMd contents snaps).1) := by
  rw [get_note_snapshots_eq]
  constructor
  · intro item hmem htype sid hsid hsid0
    constructor
    · intro base hbase dd hdd
      rw [List.mem_filterMap]
      refine ⟨item, hmem, ?_⟩
      unfold resolve_item
      simp [htype, hsid, hsid0, hbase, hdd]
    · intro hnone
      constructor
      · intro r hr hrid
        rw [List.mem_filterMap] at hr
        obtain ⟨i, hi, hres⟩ := hr
        have hid : r.id = i.id := resolve_item_id toMd snaps i r hres
        have : i = item :=
          List.inj_on_of_nodup_map hids hi hmem (by rw [← hid, hrid])
        subst this
        unfold resolve_item at hres
        simp [htype, hsid, hsid0, hnone] at hres
      · rw [List.mem_flatMap]
        refine ⟨item, hmem, ?_⟩
        unfold resolve_item
        simp [htype, hsid, hsid0, hnone]
  · intro item hmem htype
    rw [List.mem_filterMap]
    refine ⟨item, hmem, ?_⟩
    unfold resolve_item
    rw [if_neg htype]


def c2_snaps : List HistItem :=
  [ { id := 1, type := "SNAPSHOT", description := strOf "Hello",
      updated := strOf "u1", snapshot_id := none } ]

def c2_contents : List HistItem :=
  [ { id := 2, type := "DELTA", description := strOf "=5\t+ world",
      updated := strOf "u2", snapshot_id := some 1 },
    { id := 3, type := "SNAPSHOT", description := strOf "Bye",
      updated := strOf "u3", snapshot_id := none },
    { id := 4, type := "DELTA", description := strOf "=5\t+ world",
      updated := strOf "u4", snapshot_id := some 9 } ]

theorem delta_resolution_witness :
    diff_from_delta (strOf "Hello") (strOf "=5\t+ world") =
      .ok [(DiffOp.equal, strOf "Hello"), (DiffOp.ins, strOf " world")] ∧
    (get_note_snapshots id c2_contents c2_snaps).1 =
      [ ⟨2, "DELTA", strOf "u2", strOf "Hello world"⟩,
        ⟨3, "SNAPSHOT", strOf "u3", strOf "Bye"⟩ ] ∧
    (get_note_snapshots id c2_contents c2_snaps).2 =
      [HistTrace.snapshotMissing 9 4] ∧
    (⟨2, "DELTA", strOf "u2", strOf "Hello world"⟩ : HistEntry)
      ∈ (get_note_snapshots id c2_contents c2_snaps).1 ∧
    HistTrace.snapshotMissing 9 4 ∈ (get_note_snapshots id c2_contents c2_snaps).2 := by
  refine ⟨rfl, by decide, by decide, ?_, ?_⟩
  · exact ((delta_resolution id c2_contents c2_snaps (by decide)).1
      { id := 2, type := "DELTA", description := strOf "=5\t+ world",
        updated := strOf "u2", snapshot_id := some 1 }
      (by decide) rfl 1 rfl (by decide)).1
      { id := 1, type := "SNAPSHOT", description := strOf "Hello",
        updated := strOf "u1", snapshot_id := none }
      rfl
      [(DiffOp.equal, strOf "Hello"), (DiffOp.ins, strOf " world")] rfl
  · exact (((delta_resolution id c2_contents c2_snaps (by decide)).1
      { id := 4, type := "DELTA", description := strOf "=5\t+ world",
        updated := strOf "u4", snapshot_id := some 9 }
      (by decide) rfl 9 rfl (by decide)).2 rfl).2

/-! ## Relocation boundary (claim C3) -/

theorem scan_heads_aux_start_ge :
    ∀ (fuel pos : Nat) (cs : Str) (m : HeadMatch),
      m ∈ scan_heads_aux fuel pos cs → pos ≤ m.start := by
  intro fuel
  induction fuel with
  | zero =>
    intro pos cs m hm
    cases cs <;> simp [scan_heads_aux] at hm
  | succ f ih =>
    intro pos cs m hm
    cases cs with
    | nil => simp [scan_heads_aux] at hm
    | cons c rest =>
      rw [scan_heads_aux] at hm
      cases hme : match_head_at (c :: rest) with
      | some r =>
        rw [hme] at hm
        obtain ⟨lvl, inner, len, after⟩ := r
        rcases List.mem_cons.mp hm with heq | hmem
        · subst heq; exact Nat.le_refl _
        · have := ih (pos + len) after m hmem
          omega
      | none =>
        rw [hme] at hm
        have := ih (pos + 1) rest m hm
        omega

theorem scan_heads_aux_pairwise :
    ∀ (fuel pos : Nat) (cs : Str),
      (scan_heads_aux fuel pos cs).Pairwise (fun a b => a.start < b.start) := by
  intro fuel
  induction fuel with
  | zero =>
    intro pos cs
    cases cs <;> simp [scan_heads_aux]
  | succ f ih =>
    intro pos cs
    cases cs with
    | nil => simp [scan_heads_aux]
    | cons c rest =>
      rw [scan_heads_aux]
      cases hme : match_head_at (c :: rest) with
      | some r =>
        obtain ⟨lvl, inner, len, after⟩ := r
        refine List.Pairwise.cons ?_ (ih (pos + len) after)
        intro m hmem
        have h1 := scan_heads_aux_start_ge f (pos + len) after m hmem
        have h2 := match_head_at_length hme
        show pos < m.start
        omega
      | none => exact ih (pos + 1) rest

theorem find_headings_pairwise (html : Str) :
    (find_headings html).Pairwise (fun a b => a.start < b.start) :=
  scan_heads_aux_pairwise html.length 0 html

theorem find?_min_start (p : HeadMatch → Bool) :
    ∀ (ms : List HeadMatch), ms.Pairwise (fun a b => a.start < b.start) →
      ∀ m2, ms.find? p = some m2 → ∀ m' ∈ ms, p m' = true → m2.start ≤ m'.start := by
  intro ms
  induction ms with
  | nil => intro _ m2 hf; simp at hf
  | cons x xs ih =>
    intro hpw m2 hf m' hmem hp
    cases hx : p x with
    | true =>
      rw [List.find?_cons_of_pos _ hx] at hf
      injection hf with hf
      subst hf
      rcases List.mem_cons.mp hmem with heq | hmem'
      · subst heq; exact Nat.le_refl _
      · exact Nat.le_of_lt ((List.pairwise_cons.mp hpw).1 m' hmem')
    | false =>
      rw [List.find?_cons_of_neg _ (by simp [hx])] at hf
      rcases List.mem_cons.mp hmem with heq | hmem'
      · subst heq; rw [hp] at hx; cases hx
      · exact ih (List.pairwise_cons.mp hpw).2 m2 hf m' hmem' hp

/-- C3 — block extraction cuts from the start of the first heading whose
inner text contains the heading text up to (excluding) the earliest
later heading of level at most the matched level, or the end of the
document when no such heading exists; the remaining source is the text
before the block followed by the text after it. -/
theorem block_extraction_boundary (html ht : Str) (m : HeadMatch)
    (hfind : (find_headings html).find? (fun m' => containsSeq ht m'.inner) = some m) :
    (∀ m' ∈ find_headings html, containsSeq ht m'.inner = true → m.start ≤ m'.start) ∧
    ∃ e, extract_and_remove_card html ht =
        (html.take m.start ++ html.drop e,
         some ((html.drop m.start).take (e - m.start))) ∧
      (∀ m2 ∈ find_headings html, m.start < m2.start → m2.level ≤ m.level →
        e ≤ m2.start) ∧
      ((∃ m2 ∈ find_headings html,
          m.start < m2.start ∧ m2.level ≤ m.level ∧ e = m2.start) ∨
        (e = html.length ∧
          ∀ m2 ∈ find_headings html, m.start < m2.start → m.level < m2.level)) := by
  have hpw := find_headings_pairwise html
  constructor
  · exact find?_min_start _ _ hpw m hfind
  · cases hb : (find_headings html).find?
        (fun m2 => m.start < m2.start && m2.level ≤ m.level) with
    | some m2 =>
      refine ⟨m2.start, by simp only [extract_and_remove_card, hfind, hb], ?_, ?_⟩
      · intro m3 hm3 hlt hle
        exact find?_min_start _ _ hpw m2 hb m3 hm3 (by simp [hlt, hle])
      · left
        have hp := List.find?_some hb
        simp only [Bool.and_eq_true, decide_eq_true_eq] at hp
        exact ⟨m2, List.mem_of_find?_eq_some hb, hp.1, hp.2, rfl⟩
    | none =>
      refine ⟨html.length, by simp only [extract_and_remove_card, hfind, hb], ?_, ?_⟩
      · intro m3 hm3 hlt hle
        have := List.find?_eq_none.mp hb m3 hm3
        simp only [Bool.and_eq_true, decide_eq_true_eq, not_and] at this
        exact absurd hle (this hlt)
      · right
        refine ⟨rfl, ?_⟩
        intro m2 hm2 hlt
        have := List.find?_eq_none.mp hb m2 hm2
        simp only [Bool.and_eq_true, decide_eq_true_eq, not_and] at this
        exact Nat.lt_of_not_le (this hlt)

def c3_html : Str := strOf "<h1>A</h1>x<h2>B</h2>y<h1>C</h1>z"

def c3_m : HeadMatch := { start := 11, stop := 21, level := 2, inner := strOf "B" }

theorem block_extraction_boundary_witness :
    (find_headings c3_html).find? (fun m' => containsSeq (strOf "B") m'.inner)
      = some c3_m ∧
    extract_and_remove_card c3_html (strOf "B") =
      (strOf "<h1>A</h1>x<h1>C</h1>z", some (strOf "<h2>B</h2>y")) ∧
    (∀ m' ∈ find_headings c3_html,
      containsSeq (strOf "B") m'.inner = true → c3_m.start ≤ m'.start) :=
  ⟨by decide, by decide,
   (block_extraction_boundary c3_html (strOf "B") c3_m (by decide)).1⟩

/-! ## Chunk size bound (claim C6) -/

theorem foldl_append_length :
    ∀ (docs : List Str) (a : Str),
      (docs.foldl (· ++ ·) a).length = a.length + (docs.map List.length).sum := by
  intro docs
  induction docs with
  | nil => intro a; simp
  | cons d rest ih =>
    intro a
    simp only [List.foldl_cons, ih, List.map_cons, List.sum_cons, List.length_append]
    omega

theorem join_strip_length {docs : List Str} {c : Str} (h : join_strip docs = some c) :
    c.length ≤ (docs.map List.length).sum := by
  simp only [join_strip] at h
  split at h
  · cases h
  · injection h with h
    subst h
    calc (pyStrip (docs.foldl (· ++ ·) [])).length
        ≤ (docs.foldl (· ++ ·) []).length := length_pyStrip_le _
      _ = (docs.map List.length).sum := by rw [foldl_append_length]; simp

theorem trim_doc_spec (lenNext : Nat) :
    ∀ (doc : List Str) (total : Nat), total = (doc.map List.length).sum →
      (trim_doc lenNext doc total).2 =
        ((trim_doc lenNext doc total).1.map List.length).sum ∧
      (trim_doc lenNext doc total).2 ≤ chunk_overlap ∧
      ((trim_doc lenNext doc total).2 + lenNext ≤ chunk_size ∨
        (trim_doc lenNext doc total).2 = 0) := by
  intro doc
  induction doc with
  | nil =>
    intro total htot
    simp only [List.map_nil, List.sum_nil] at htot
    subst htot
    simp [trim_doc, chunk_overlap]
  | cons d rest ih =>
    intro total htot
    simp only [List.map_cons, List.sum_cons] at htot
    unfold trim_doc
    split
    · exact ih (total - d.length) (by omega)
    · rename_i hcond
      push_neg at hcond
      simp only [List.map_cons, List.sum_cons]
      refine ⟨htot, hcond.1, ?_⟩
      rcases Nat.lt_or_ge chunk_size (total + lenNext) with hgt | hle
      · have := hcond.2 hgt
        omega
      · exact Or.inl hle

theorem merge_aux_bound :
    ∀ (splits doc : List Str) (total : Nat) (docs : List Str),
      (∀ s ∈ splits, s.length < chunk_size) →
      total = (doc.map List.length).sum →
      total ≤ chunk_size →
      (∀ c ∈ docs, c.length ≤ chunk_size) →
      ∀ c ∈ merge_aux splits doc total docs, c.length ≤ chunk_size := by
  intro splits
  induction splits with
  | nil =>
    intro doc total docs _ htot hle hdocs c hc
    unfold merge_aux at hc
    rcases List.mem_append.mp hc with h | h
    · exact hdocs c h
    · cases hj : join_strip doc with
      | none => rw [hj] at h; simp [Option.toList] at h
      | some j =>
        rw [hj] at h
        simp only [Option.toList_some, List.mem_singleton] at h
        subst h
        have := join_strip_length hj
        omega
  | cons d rest ih =>
    intro doc total docs hsp htot hle hdocs c hc
    have hd : d.length < chunk_size := hsp d (List.mem_cons_self _ _)
    have hsp' : ∀ s ∈ rest, s.length < chunk_size :=
      fun s hs => hsp s (List.mem_cons_of_mem _ hs)
    unfold merge_aux at hc
    split at hc
    · rename_i hover
      by_cases hdoc : doc = []
      · exfalso
        subst hdoc
        simp only [List.map_nil, List.sum_nil] at htot
        omega
      · have hdoc' : doc ≠ [] := hdoc
        simp only [hdoc', ne_eq, not_false_eq_true, if_pos, reduceIte] at hc
        obtain ⟨ht1, ht2, ht3⟩ := trim_doc_spec d.length doc total htot
        refine ih ((trim_doc d.length doc total).1 ++ [d])
          ((trim_doc d.length doc total).2 + d.length)
          (docs ++ (join_strip doc).toList)
          hsp' ?_ ?_ ?_ c hc
        · simp only [List.map_append, List.sum_append, List.map_cons, List.sum_cons,
            List.map_nil, List.sum_nil]
          omega
        · rcases ht3 with h | h
          · omega
          · omega
        · intro c' hc'
          rcases List.mem_append.mp hc' with h | h
          · exact hdocs c' h
          · cases hj : join_strip doc with
            | none => rw [hj] at h; simp [Option.toList] at h
            | some j =>
              rw [hj] at h
              simp only [Option.toList_some, List.mem_singleton] at h
              subst h
              have := join_strip_length hj
              omega
    · rename_i hover
      push_neg at hover
      refine ih (doc ++ [d]) (total + d.length) docs hsp' ?_ hover ?_ c hc
      · simp only [List.map_append, List.sum_append, List.map_cons, List.sum_cons,
          List.map_nil, List.sum_nil]
        omega
      · exact hdocs

/-- A piece that the secondary splitter cannot divide further: a single
line, possibly carrying the separator newline it was split at as a
prefix. -/
def line_fragment (c : Str) : Bool :=
  match c with
  | '\n' :: rest => rest.all (fun x => x ≠ '\n')
  | _ => c.all (fun x => x ≠ '\n')

theorem splitOnSepAux_newline_free :
    ∀ (fuel : Nat) (s : Str), ∀ p ∈ splitOnSepAux ['\n'] fuel s, '\n' ∉ p ∨ s.length > fuel := by
  intro fuel
  induction fuel with
  | zero =>
    intro s p hp
    cases s with
    | nil =>
      simp only [splitOnSepAux, List.mem_singleton] at hp
      subst hp
      exact Or.inl (by simp)
    | cons c rest =>
      right
      simp
  | succ f ih =>
    intro s p hp
    cases s with
    | nil =>
      simp only [splitOnSepAux, List.mem_singleton] at hp
      subst hp
      exact Or.inl (by simp)
    | cons c rest =>
      by_cases hlen : rest.length ≤ f
      · left
        rw [splitOnSepAux] at hp
        split at hp
        · rename_i hpre
          have hc : c = '\n' := by
            have := hpre.2
            simp [List.isPrefixOf] at this
            exact this.symm
          rcases List.mem_cons.mp hp with heq | hmem
          · subst heq; simp
          · have hdrop : List.drop ['\n'].length (c :: rest) = rest := by simp
            rw [hdrop] at hmem
            rcases ih rest p hmem with h | h
            · exact h
            · omega
        · rename_i hpre
          have hc : c ≠ '\n' := by
            intro hceq
            subst hceq
            exact hpre ⟨by simp, by simp [List.isPrefixOf]⟩
          cases hrec : splitOnSepAux ['\n'] f rest with
          | nil =>
            rw [hrec] at hp
            simp only [List.mem_singleton] at hp
            subst hp
            intro hmem
            rcases List.mem_cons.mp hmem with h | h
            · exact hc h.symm
            · simp at h
          | cons l ls =>
            rw [hrec] at hp
            rcases List.mem_cons.mp hp with heq | hmem
            · subst heq
              intro hmem2
              rcases List.mem_cons.mp hmem2 with h | h
              · exact hc h.symm
              · have := ih rest l (hrec ▸ List.mem_cons_self _ _)
                rcases this with h' | h'
                · exact h' h
                · omega
            · have := ih rest p (hrec ▸ List.mem_cons_of_mem _ hmem)
              rcases this with h' | h'
              · exact h'
              · omega
      · right
        simp only [List.length_cons]
        omega

theorem splitOnSep_newline_free (s : Str) :
    ∀ p ∈ splitOnSep ['\n'] s, '\n' ∉ p := by
  intro p hp
  rcases splitOnSepAux_newline_free s.length s p hp with h | h
  · exact h
  · omega

theorem split_keep_sep_line_fragment (text : Str) :
    ∀ p ∈ split_keep_sep ['\n'] text, line_fragment p = true := by
  intro p hp
  unfold split_keep_sep at hp
  cases hs : splitOnSep ['\n'] text with
  | nil => rw [hs] at hp; simp at hp
  | cons p0 ps =>
    rw [hs] at hp
    have hp' := List.mem_of_mem_filter hp
    have hfree : ∀ q ∈ p0 :: ps, '\n' ∉ q := fun q hq =>
      splitOnSep_newline_free text q (hs ▸ hq)
    rcases List.mem_cons.mp hp' with heq | hmem
    · subst heq
      have h0 : '\n' ∉ p := hfree p (List.mem_cons_self _ _)
      unfold line_fragment
      split
      · rename_i rest
        exact absurd (List.mem_cons_self '\n' rest) h0
      · rw [List.all_eq_true]
        intro x hx
        simp only [ne_eq, decide_eq_true_eq]
        intro hxeq
        exact h0 (hxeq ▸ hx)
    · rw [List.mem_map] at hmem
      obtain ⟨q, hq, hpq⟩ := hmem
      have h0 : '\n' ∉ q := hfree q (List.mem_cons_of_mem _ hq)
      subst hpq
      have hlf : line_fragment ('\n' :: q) = q.all (fun x => x ≠ '\n') := rfl
      show line_fragment ('\n' :: q) = true
      rw [hlf, List.all_eq_true]
      intro x hx
      simp only [ne_eq, decide_eq_true_eq]
      intro hxeq
      exact h0 (hxeq ▸ hx)

theorem split_runs_bound (recur : Str → List Str) (useR : Bool) (P : Str → Bool)
    (hrec : useR = true → ∀ s, ∀ c ∈ recur s,
      c.length ≤ chunk_size ∨ (P c = true ∧ chunk_size ≤ c.length)) :
    ∀ (splits goodAcc : List Str),
      (∀ s ∈ splits, useR = false → P s = true) →
      (∀ s ∈ goodAcc, s.length < chunk_size) →
      ∀ c ∈ split_runs recur useR goodAcc splits,
        c.length ≤ chunk_size ∨ (P c = true ∧ chunk_size ≤ c.length) := by
  intro splits
  induction splits with
  | nil =>
    intro goodAcc _ hgood c hc
    unfold split_runs at hc
    exact Or.inl (merge_aux_bound goodAcc [] 0 [] hgood rfl (by simp [chunk_size])
      (by simp) c hc)
  | cons s rest ih =>
    intro goodAcc hP hgood c hc
    unfold split_runs at hc
    split at hc
    · rename_i hslt
      refine ih (goodAcc ++ [s]) (fun x hx hf => hP x (List.mem_cons_of_mem _ hx) hf)
        ?_ c hc
      intro x hx
      rcases List.mem_append.mp hx with h | h
      · exact hgood x h
      · rw [List.mem_singleton.mp h]
        exact hslt
    · rename_i hsge
      rcases List.mem_append.mp hc with h1 | h2
      · rcases List.mem_append.mp h1 with hm | hr
        · exact Or.inl (merge_aux_bound goodAcc [] 0 [] hgood rfl
            (by simp [chunk_size]) (by simp) c hm)
        · cases useR with
          | true => exact hrec rfl s c hr
          | false =>
            rw [List.mem_singleton.mp hr]
            exact Or.inr ⟨hP s (List.mem_cons_self _ _) rfl, Nat.le_of_not_lt hsge⟩
      · exact ih [] (fun x hx hf => hP x (List.mem_cons_of_mem _ hx) hf) (by simp) c h2

theorem pick_separator_single (text : Str) :
    pick_separator [['\n']] text = (['\n'], []) := by
  unfold pick_separator pick_sep_aux
  by_cases hc : containsSeq ['\n'] text = true
  · simp [hc]
  · simp [hc, pick_sep_aux]

theorem pick_separator_pair (text : Str) :
    pick_separator rc_separators text = (['\n', '\n'], [['\n']]) ∨
    pick_separator rc_separators text = (['\n'], []) := by
  unfold pick_separator rc_separators pick_sep_aux
  by_cases h1 : containsSeq ['\n', '\n'] text = true
  · left
    simp [h1]
  · right
    by_cases h2 : containsSeq ['\n'] text = true
    · simp [h1, h2, pick_sep_aux]
    · simp [h1, h2, pick_sep_aux]

theorem split_text_one_bound (text : Str) :
    ∀ c ∈ split_text_aux 1 [['\n']] text,
      c.length ≤ chunk_size ∨ (line_fragment c = true ∧ chunk_size ≤ c.length) := by
  intro c hc
  have h1 : split_text_aux 1 [['\n']] text =
      split_runs (split_text_aux 0 []) false []
        (split_keep_sep ['\n'] text) := by
    show split_text_aux (0 + 1) [['\n']] text = _
    unfold split_text_aux
    rw [pick_separator_single]
    rfl
  rw [h1] at hc
  exact split_runs_bound _ false line_fragment (fun habs => by cases habs)
    (split_keep_sep ['\n'] text) []
    (fun s hs _ => split_keep_sep_line_fragment text s hs)
    (by simp) c hc

/-- Every chunk the secondary splitter emits is within the chunk size,
or is an unsplittable `line_fragment` at least as long as the chunk
size. -/
theorem rc_split_text_bound (text : Str) :
    ∀ c ∈ rc_split_text text,
      c.length ≤ chunk_size ∨ (line_fragment c = true ∧ chunk_size ≤ c.length) := by
  intro c hc
  unfold rc_split_text at hc
  have hfuel : rc_separators.length = 1 + 1 := rfl
  rw [hfuel] at hc
  rcases pick_separator_pair text with hpick | hpick
  · have h1 : split_text_aux (1 + 1) rc_separators text =
        split_runs (split_text_aux 1 [['\n']]) true []
          (split_keep_sep ['\n', '\n'] text) := by
      unfold split_text_aux
      rw [hpick]
      rfl
    rw [h1] at hc
    refine split_runs_bound _ true line_fragment ?_ _ [] (by simp) (by simp) c hc
    intro _ s c' hc'
    exact split_text_one_bound s c' hc'
  · have h1 : split_text_aux (1 + 1) rc_separators text =
        split_runs (split_text_aux 1 []) false []
          (split_keep_sep ['\n'] text) := by
      unfold split_text_aux
      rw [hpick]
      rfl
    rw [h1] at hc
    exact split_runs_bound _ false line_fragment (fun habs => by cases habs)
      (split_keep_sep ['\n'] text) []
      (fun s hs _ => split_keep_sep_line_fragment text s hs)
      (by simp) c hc

theorem foldl_skip_eq {α β : Type} (P : α → Prop) [DecidablePred P] (f : α → β) :
    ∀ (l : List α) (acc : List β),
      l.foldl (fun acc p => if P p then acc else acc ++ [f p]) acc =
        acc ++ (l.filter (fun p => !(decide (P p)))).map f := by
  intro l
  induction l with
  | nil => intro acc; simp
  | cons x xs ih =>
    intro acc
    simp only [List.foldl_cons]
    by_cases hx : P x
    · rw [if_pos hx, ih]
      simp [hx]
    · rw [if_neg hx, ih]
      simp [hx]

/-- The `for idx, split in enumerate(final_splits)` loop of
`process_content` emits exactly the splits of length at least two, in
order, as chunk records. -/
theorem process_content_eq (conv : Str → Str) (sz : Str → Nat)
    (oid uid : Nat) (title html ts : Str) :
    process_content conv sz oid uid title html ts =
      ((final_splits sz (conv html)).enum.filter
        (fun p => !(decide (p.2.page_content.length < 2)))).map
        (fun p => chunk_record oid uid title ts p.1 p.2) := by
  unfold process_content
  rw [foldl_skip_eq (fun p : Nat × MDSection => p.2.page_content.length < 2)
    (fun p => chunk_record oid uid title ts p.1 p.2) _ []]
  simp

/-- C6 (amended) — `process_content` emits exactly the post-secondary-
split chunks of length at least two (shorter chunks are discarded, not
emitted), and every post-secondary-split chunk either is within the
chunk-size threshold (hence within threshold + overlap) or is a single
line fragment that the splitter cannot divide at a blank-line or
newline boundary and that is emitted verbatim, possibly exceeding the
bound. -/
theorem chunk_size_bound (conv : Str → Str) (sz : Str → Nat)
    (oid uid : Nat) (title html ts : Str) :
    process_content conv sz oid uid title html ts =
      ((final_splits sz (conv html)).enum.filter
        (fun p => !(decide (p.2.page_content.length < 2)))).map
        (fun p => chunk_record oid uid title ts p.1 p.2) ∧
    ∀ s ∈ final_splits sz (conv html),
      s.page_content.length ≤ chunk_size + chunk_overlap ∨
        (line_fragment s.page_content = true ∧
          chunk_size ≤ s.page_content.length) := by
  refine ⟨process_content_eq conv sz oid uid title html ts, ?_⟩
  intro s hs
  unfold final_splits split_documents at hs
  rw [List.mem_flatMap] at hs
  obtain ⟨sec, _, hmem⟩ := hs
  rw [List.mem_map] at hmem
  obtain ⟨c, hc, hceq⟩ := hmem
  have hbound := rc_split_text_bound sec.page_content c hc
  rcases hbound with h | h
  · left
    rw [← hceq]
    simp only [chunk_size, chunk_overlap] at h ⊢
    omega
  · right
    rw [← hceq]
    exact h

def c6_html : Str := List.replicate 700 'x'

/-- C6 counterexample — a 700-character single-line body survives the
header split unchanged and cannot be divided at any blank-line or
newline boundary, so the secondary splitter emits it verbatim: the
emitted chunk is 700 bytes long, exceeding the claimed bound
`chunk_size + chunk_overlap = 600`, and it is nonetheless emitted (it
passes the 2-character minimum). -/
theorem chunk_size_bound_counterexample :
    (final_splits (fun s => s.length) c6_html).map
      (fun s => s.page_content.length) = [700] ∧
    (process_content id (fun s => s.length) 1 1 (strOf "T") c6_html
      (strOf "ts")).map (fun c => c.id) = [mk_chunk_id 1 0] ∧
    chunk_size + chunk_overlap < 700 :=
  ⟨by decide, by decide, by decide⟩

theorem chunk_size_bound_witness :
    process_content id (fun s => s.length) 7 9 (strOf "T") (strOf "# A\nhello")
        (strOf "ts") =
      ((final_splits (fun s => s.length) (id (strOf "# A\nhello"))).enum.filter
        (fun p => !(decide (p.2.page_content.length < 2)))).map
        (fun p => chunk_record 7 9 (strOf "T") (strOf "ts") p.1 p.2) ∧
    (final_splits (fun s => s.length) (strOf "# A\nhello")).all
      (fun s => decide (s.page_content.length ≤ chunk_size + chunk_overlap)) = true :=
  ⟨(chunk_size_bound id (fun s => s.length) 7 9 (strOf "T") (strOf "# A\nhello")
      (strOf "ts")).1,
   by decide⟩

/-! ## Idempotent re-indexing (claim C7) -/

/-- The ordered chunk id list produced by chunking one fetched row. -/
def chunk_ids (conv : Str → Str) (sz : Str → Nat) (r : NoteRow) : List Str :=
  (process_content conv sz r.co_id r.us_id r.co_title r.co_description
    r.co_updated).map (fun c => c.id)

/-- The ordered list of chunk ids present in the index for one
document. -/
def ids_for (oid : Nat) (ix : List ChunkRec) : List Str :=
  (ix.filter (fun e => e.meta.original_id = oid)).map (fun e => e.id)

/-- Every entry this pipeline ever writes has an id of the shape
`{original_id}_{ordinal}` for its own `original_id` (an invariant of
the Chroma collection). -/
def entry_wf (e : ChunkRec) : Prop :=
  ∃ k, e.id = mk_chunk_id e.meta.original_id k

theorem mem_foldl_delete_where :
    ∀ (oids : List Nat) (ix : List ChunkRec) (e : ChunkRec),
      e ∈ oids.foldl (fun i oid => delete_where oid i) ix ↔
        (e ∈ ix ∧ ∀ oid ∈ oids, e.meta.original_id ≠ oid) := by
  intro oids
  induction oids with
  | nil => intro ix e; simp
  | cons o os ih =>
    intro ix e
    simp only [List.foldl_cons]
    rw [ih]
    unfold delete_where
    rw [List.mem_filter]
    constructor
    · intro ⟨⟨h1, h2⟩, h3⟩
      simp only [ne_eq, decide_not, Bool.not_eq_true', decide_eq_false_iff_not] at h2
      refine ⟨h1, ?_⟩
      intro oid hoid
      rcases List.mem_cons.mp hoid with heq | hmem
      · exact heq ▸ h2
      · exact h3 oid hmem
    · intro ⟨h1, h2⟩
      refine ⟨⟨h1, ?_⟩, ?_⟩
      · simp only [ne_eq, decide_not, Bool.not_eq_true', decide_eq_false_iff_not]
        exact h2 o (List.mem_cons_self _ _)
      · exact fun oid hm => h2 oid (List.mem_cons_of_mem _ hm)

theorem mem_process_content (conv : Str → Str) (sz : Str → Nat)
    (oid uid : Nat) (title html ts : Str) :
    ∀ c ∈ process_content conv sz oid uid title html ts,
      c.meta.original_id = oid ∧ ∃ k, c.id = mk_chunk_id oid k := by
  intro c hc
  rw [process_content_eq] at hc
  rw [List.mem_map] at hc
  obtain ⟨p, _, hpc⟩ := hc
  subst hpc
  exact ⟨rfl, p.1, rfl⟩

theorem chunk_ids_eq (conv : Str → Str) (sz : Str → Nat) (r : NoteRow) :
    chunk_ids conv sz r =
      (((final_splits sz (conv r.co_description)).enum.filter
        (fun p => !(decide (p.2.page_content.length < 2)))).map Prod.fst).map
        (mk_chunk_id r.co_id) := by
  unfold chunk_ids
  rw [process_content_eq]
  rw [List.map_map, List.map_map]
  rfl

theorem chunk_ids_nodup (conv : Str → Str) (sz : Str → Nat) (r : NoteRow) :
    (chunk_ids conv sz r).Nodup := by
  rw [chunk_ids_eq]
  refine List.Nodup.map (fun a b hab => (mk_chunk_id_inj hab).2) ?_
  have hsub : ((final_splits sz (conv r.co_description)).enum.filter
      (fun p => !(decide (p.2.page_content.length < 2)))).Sublist
      (final_splits sz (conv r.co_description)).enum := List.filter_sublist _
  have := List.Sublist.map Prod.fst hsub
  rw [List.enum_map_fst] at this
  exact this.nodup (List.nodup_range _)

theorem mem_cycle_chunks (conv : Str → Str) (sz : Str → Nat) (df : List NoteRow) :
    ∀ c ∈ cycle_chunks conv sz df,
      ∃ r ∈ df, c.meta.original_id = r.co_id ∧ ∃ k, c.id = mk_chunk_id r.co_id k := by
  intro c hc
  unfold cycle_chunks at hc
  rw [List.mem_flatMap] at hc
  obtain ⟨r, hr, hmem⟩ := hc
  exact ⟨r, hr, mem_process_content conv sz _ _ _ _ _ c hmem⟩

theorem cycle_chunks_ids_nodup (conv : Str → Str) (sz : Str → Nat) :
    ∀ (df : List NoteRow), (df.map (fun r => r.co_id)).Nodup →
      ((cycle_chunks conv sz df).map (fun c => c.id)).Nodup := by
  intro df
  induction df with
  | nil => intro _; simp [cycle_chunks]
  | cons r rest ih =>
    intro hnd
    simp only [List.map_cons, List.nodup_cons] at hnd
    have hcons : cycle_chunks conv sz (r :: rest) =
        process_content conv sz r.co_id r.us_id r.co_title r.co_description
          r.co_updated ++ cycle_chunks conv sz rest := by
      unfold cycle_chunks
      rw [List.flatMap_cons]
    rw [hcons, List.map_append, List.nodup_append]
    refine ⟨chunk_ids_nodup conv sz r, ih hnd.2, ?_⟩
    intro i hi1 hi2
    rw [List.mem_map] at hi1 hi2
    obtain ⟨c1, hc1, hi1⟩ := hi1
    obtain ⟨c2, hc2, hi2⟩ := hi2
    obtain ⟨_, k1, hk1⟩ := mem_process_content conv sz _ _ _ _ _ c1 hc1
    obtain ⟨r2, hr2, _, k2, hk2⟩ := mem_cycle_chunks conv sz rest c2 hc2
    apply hnd.1
    rw [List.mem_map]
    refine ⟨r2, hr2, ?_⟩
    have : mk_chunk_id r.co_id k1 = mk_chunk_id r2.co_id k2 := by
      rw [← hk1, ← hk2, hi1, hi2]
    exact ((mk_chunk_id_inj this).1).symm

theorem upsert_list_fresh :
    ∀ (cs ix : List ChunkRec),
      (∀ c ∈ cs, ∀ e ∈ ix, e.id ≠ c.id) →
      (cs.map (fun c => c.id)).Nodup →
      upsert_list ix cs = ix ++ cs := by
  intro cs
  induction cs with
  | nil => intro ix _ _; simp [upsert_list]
  | cons c rest ih =>
    intro ix hfresh hnd
    simp only [List.map_cons, List.nodup_cons] at hnd
    have hany : ix.any (fun x => x.id = c.id) = false := by
      rw [List.any_eq_false]
      intro e he
      simp only [decide_eq_true_eq]
      exact hfresh c (List.mem_cons_self _ _) e he
    have hstep : upsert_list ix (c :: rest) = upsert_list (ix ++ [c]) rest := by
      unfold upsert_list
      simp only [List.foldl_cons]
      unfold upsert_entry
      rw [hany]
      simp
    rw [hstep, ih (ix ++ [c]) ?_ hnd.2]
    · simp
    · intro c' hc' e he
      rcases List.mem_append.mp he with h | h
      · exact hfresh c' (List.mem_cons_of_mem _ hc') e h
      · rw [List.mem_singleton.mp h]
        intro heq
        apply hnd.1
        rw [List.mem_map]
        exact ⟨c', hc', heq.symm⟩

theorem ids_for_append (oid : Nat) (a b : List ChunkRec) :
    ids_for oid (a ++ b) = ids_for oid a ++ ids_for oid b := by
  unfold ids_for
  rw [List.filter_append, List.map_append]

theorem ids_for_eq_nil (oid : Nat) (ix : List ChunkRec)
    (h : ∀ e ∈ ix, e.meta.original_id ≠ oid) : ids_for oid ix = [] := by
  unfold ids_for
  have : ix.filter (fun e => e.meta.original_id = oid) = [] := by
    rw [List.filter_eq_nil_iff]
    intro e he
    simp only [decide_eq_true_eq]
    exact h e he
  rw [this]
  rfl

theorem ids_for_process_self (conv : Str → Str) (sz : Str → Nat) (r : NoteRow) :
    ids_for r.co_id (process_content conv sz r.co_id r.us_id r.co_title
      r.co_description r.co_updated) = chunk_ids conv sz r := by
  unfold ids_for chunk_ids
  have : (process_content conv sz r.co_id r.us_id r.co_title r.co_description
      r.co_updated).filter (fun e => e.meta.original_id = r.co_id) =
      process_content conv sz r.co_id r.us_id r.co_title r.co_description
        r.co_updated := by
    rw [List.filter_eq_self]
    intro e he
    simp only [decide_eq_true_eq]
    exact (mem_process_content conv sz _ _ _ _ _ e he).1
  rw [this]

theorem ids_for_cycle_chunks (conv : Str → Str) (sz : Str → Nat) :
    ∀ (df : List NoteRow), (df.map (fun r => r.co_id)).Nodup →
      ∀ d ∈ df, ids_for d.co_id (cycle_chunks conv sz df) = chunk_ids conv sz d := by
  intro df
  induction df with
  | nil => intro _ d hd; simp at hd
  | cons r rest ih =>
    intro hnd d hd
    simp only [List.map_cons, List.nodup_cons] at hnd
    have hcons : cycle_chunks conv sz (r :: rest) =
        process_content conv sz r.co_id r.us_id r.co_title r.co_description
          r.co_updated ++ cycle_chunks conv sz rest := by
      unfold cycle_chunks
      rw [List.flatMap_cons]
    rw [hcons, ids_for_append]
    rcases List.mem_cons.mp hd with heq | hmem
    · subst heq
      rw [ids_for_process_self]
      have hnil : ids_for d.co_id (cycle_chunks conv sz rest) = [] := by
        apply ids_for_eq_nil
        intro e he
        obtain ⟨r2, hr2, horig, _⟩ := mem_cycle_chunks conv sz rest e he
        rw [horig]
        intro heq2
        apply hnd.1
        rw [List.mem_map]
        exact ⟨r2, hr2, heq2⟩
      rw [hnil, List.append_nil]
    · have hne : r.co_id ≠ d.co_id := by
        intro heq2
        apply hnd.1
        rw [List.mem_map]
        exact ⟨d, hmem, heq2.symm⟩
      have hnil : ids_for d.co_id (process_content conv sz r.co_id r.us_id
          r.co_title r.co_description r.co_updated) = [] := by
        apply ids_for_eq_nil
        intro e he
        rw [(mem_process_content conv sz _ _ _ _ _ e he).1]
        exact hne
      rw [hnil, List.nil_append]
      exact ih hnd.2 d hmem

theorem cycle_fresh (conv : Str → Str) (sz : Str → Nat) (df : List NoteRow)
    (ix : List ChunkRec) (hwf : ∀ e ∈ ix, entry_wf e) :
    ∀ c ∈ cycle_chunks conv sz df, ∀ e ∈ delete_fetched df ix, e.id ≠ c.id := by
  intro c hc e he
  unfold delete_fetched at he
  rw [mem_foldl_delete_where] at he
  obtain ⟨heix, hnorig⟩ := he
  obtain ⟨r, hr, horig, k, hk⟩ := mem_cycle_chunks conv sz df c hc
  obtain ⟨k', hk'⟩ := hwf e heix
  rw [hk, hk']
  intro heq
  have := (mk_chunk_id_inj heq).1
  exact hnorig r.co_id (by rw [List.mem_map]; exact ⟨r, hr, rfl⟩) this

theorem index_cycle_ids (conv : Str → Str) (sz : Str → Nat)
    (df : List NoteRow) (ix : List ChunkRec) (d : NoteRow)
    (hwf : ∀ e ∈ ix, entry_wf e)
    (hdf : (df.map (fun r => r.co_id)).Nodup)
    (hd : d ∈ df) :
    ids_for d.co_id (index_cycle conv sz df ix) = chunk_ids conv sz d := by
  unfold index_cycle
  rw [upsert_list_fresh _ _
    (fun c hc e he => cycle_fresh conv sz df ix hwf c hc e he)
    (cycle_chunks_ids_nodup conv sz df hdf)]
  rw [ids_for_append]
  have hnil : ids_for d.co_id (delete_fetched df ix) = [] := by
    apply ids_for_eq_nil
    intro e he
    unfold delete_fetched at he
    rw [mem_foldl_delete_where] at he
    exact he.2 d.co_id (by rw [List.mem_map]; exact ⟨d, hd, rfl⟩)
  rw [hnil, List.nil_append]
  exact ids_for_cycle_chunks conv sz df hdf d hd

theorem mem_upsert_list :
    ∀ (cs ix : List ChunkRec), ∀ e ∈ upsert_list ix cs, e ∈ ix ∨ e ∈ cs := by
  intro cs
  induction cs with
  | nil => intro ix e he; exact Or.inl he
  | cons c rest ih =>
    intro ix e he
    have hstep : upsert_list ix (c :: rest) = upsert_list (upsert_entry ix c) rest := by
      unfold upsert_list
      rw [List.foldl_cons]
    rw [hstep] at he
    rcases ih (upsert_entry ix c) e he with h | h
    · unfold upsert_entry at h
      split at h
      · rw [List.mem_map] at h
        obtain ⟨x, hx, hxe⟩ := h
        by_cases hid : x.id = c.id
        · rw [if_pos hid] at hxe
          exact Or.inr (hxe ▸ List.mem_cons_self _ _)
        · rw [if_neg hid] at hxe
          exact Or.inl (hxe ▸ hx)
      · rcases List.mem_append.mp h with h' | h'
        · exact Or.inl h'
        · exact Or.inr (List.mem_singleton.mp h' ▸ List.mem_cons_self _ _)
    · exact Or.inr (List.mem_cons_of_mem _ h)

theorem index_cycle_wf (conv : Str → Str) (sz : Str → Nat)
    (df : List NoteRow) (ix : List ChunkRec)
    (hwf : ∀ e ∈ ix, entry_wf e) :
    ∀ e ∈ index_cycle conv sz df ix, entry_wf e := by
  intro e he
  unfold index_cycle at he
  rcases mem_upsert_list _ _ e he with h | h
  · unfold delete_fetched at h
    rw [mem_foldl_delete_where] at h
    exact hwf e h.1
  · obtain ⟨r, _, horig, k, hk⟩ := mem_cycle_chunks conv sz df e h
    exact ⟨k, by rw [hk, horig]⟩

theorem upsert_list_append (ix : List ChunkRec) (a b : List ChunkRec) :
    upsert_list ix (a ++ b) = upsert_list (upsert_list ix a) b := by
  unfold upsert_list
  rw [List.foldl_append]

theorem batchedAux_foldl_upsert (n : Nat) (hn : n ≠ 0) :
    ∀ (fuel : Nat) (l : List ChunkRec) (ix : List ChunkRec), l.length ≤ fuel →
      (batchedAux n fuel l).foldl upsert_list ix = upsert_list ix l := by
  intro fuel
  induction fuel with
  | zero =>
    intro l ix hlen
    cases l with
    | nil => simp [batchedAux, upsert_list]
    | cons c cs => simp at hlen
  | succ f ih =>
    intro l ix hlen
    cases l with
    | nil => simp [batchedAux, upsert_list]
    | cons c cs =>
      have hb : batchedAux n (f + 1) (c :: cs) =
          (c :: cs).take n :: batchedAux n f ((c :: cs).drop n) := by
        rw [batchedAux, if_neg hn]
        simp
      rw [hb, List.foldl_cons]
      rw [ih ((c :: cs).drop n) (upsert_list ix ((c :: cs).take n)) ?hfuel]
      · rw [← upsert_list_append, List.take_append_drop]
      case hfuel =>
        simp only [List.length_drop, List.length_cons]
        simp only [List.length_cons] at hlen
        omega

/-- On a cycle where every batch upsert succeeds, the final index of
`run_pipeline` is exactly the delete-all-then-insert-all transformation
`index_cycle` applied to the fetched rows. -/
theorem run_pipeline_success_index (conv : Str → Str) (sz : Str → Nat)
    (gw : List ChunkRec → Bool) (db : List NoteRow) (st : EtlState)
    (hok : ∀ b ∈ batched 100 (cycle_chunks conv sz
        (fetch_notes_from_mysql db (get_last_run_time st))), gw b = true) :
    (run_pipeline conv sz gw db st).index =
      index_cycle conv sz (fetch_notes_from_mysql db (get_last_run_time st))
        st.index := by
  unfold run_pipeline
  by_cases hdf : fetch_notes_from_mysql db (get_last_run_time st) = []
  · simp only [hdf, reduceIte]
    unfold index_cycle delete_fetched cycle_chunks
    simp [upsert_list]
  · by_cases hch : cycle_chunks conv sz
        (fetch_notes_from_mysql db (get_last_run_time st)) = []
    · simp only [hdf, hch, reduceIte]
      unfold index_cycle
      rw [hch]
      simp [upsert_list, delete_fetched]
    · have hrun := upsert_batches_all_ok gw
        (batched 100 (cycle_chunks conv sz
          (fetch_notes_from_mysql db (get_last_run_time st))))
        (delete_fetched (fetch_notes_from_mysql db (get_last_run_time st)) st.index)
        hok
      simp only [hdf, hch, reduceIte, hrun]
      show (batched 100 _).foldl upsert_list _ = _
      unfold batched
      rw [batchedAux_foldl_upsert 100 (by norm_num) _ _ _ (Nat.le_refl _)]
      rfl

/-- C7 — chunk ids are `{documentId}_{ordinal}` with ordinals assigned
in split order, so one document's chunking has pairwise distinct ids;
after a delete-all-then-insert-all cycle over the fetched rows the
index's chunk id list for a fetched document is exactly that chunking's
id list (no orphans from earlier chunkings, no duplicates), and because
chunking is a pure function of the row, re-running the same cycle on
the unchanged row leaves the document's chunk id set unchanged. -/
theorem reindex_idempotent (conv : Str → Str) (sz : Str → Nat)
    (df : List NoteRow) (ix : List ChunkRec) (d : NoteRow)
    (hwf : ∀ e ∈ ix, entry_wf e)
    (hdf : (df.map (fun r => r.co_id)).Nodup)
    (hd : d ∈ df) :
    (chunk_ids conv sz d).Nodup ∧
    ids_for d.co_id (index_cycle conv sz df ix) = chunk_ids conv sz d ∧
    ids_for d.co_id (index_cycle conv sz df (index_cycle conv sz df ix)) =
      chunk_ids conv sz d :=
  ⟨chunk_ids_nodup conv sz d,
   index_cycle_ids conv sz df ix d hwf hdf hd,
   index_cycle_ids conv sz df (index_cycle conv sz df ix) d
     (index_cycle_wf conv sz df ix hwf) hdf hd⟩

def c7_row : NoteRow :=
  { co_id := 12, us_id := 9, co_title := strOf "T",
    co_description := strOf "alpha\n# H\nbeta gamma",
    co_updated := strOf "2024-01-01 00:00:00", co_type := "NOTE" }

theorem reindex_idempotent_witness :
    (chunk_ids id (fun s => s.length) c7_row).Nodup ∧
    ids_for 12 (index_cycle id (fun s => s.length) [c7_row] []) =
      chunk_ids id (fun s => s.length) c7_row ∧
    ids_for 12 (index_cycle id (fun s => s.length) [c7_row]
        (index_cycle id (fun s => s.length) [c7_row] [])) =
      chunk_ids id (fun s => s.length) c7_row :=
  reindex_idempotent id (fun s => s.length) [c7_row] [] c7_row
    (by intro e he; cases he) (by decide) (by decide)
